import Mathlib

/-
Verification of the payment-engine core against its specification.

The definitions below are a shallow embedding of the Rust sources:
  src/domain/amount.rs      (FixedPoint, from_decimal_str, to_decimal_string)
  src/domain/account.rs     (ClientAccount)
  src/domain/operations.rs  (apply_deposit .. apply_chargeback)
  src/storage/concurrent.rs (ConcurrentEntry::read / try_update)
  src/engine/processor.rs   (TransactionProcessor::process_transaction)
  src/streaming/processor.rs (StreamProcessor::process, process_shard_stream)

Machine integers (i64) are modelled as Int together with explicit range
checks for the checked arithmetic; u16/u32 identifiers are modelled as Nat
(identifier arithmetic never overflows in the source).  The Rust domain
operations perform every fallible step before the first field write, so they
embed as pure functions returning `Except DomainError ClientAccount`
(the error case carries no account: the account is untouched).
`HashSet<u32>` is modelled as a `List Nat` with insert-if-absent / filter.
-/

namespace Pay

/-! ## i64 checked arithmetic (domain/amount.rs) -/

def i64Min : Int := -(2 ^ 63)

def i64Max : Int := 2 ^ 63 - 1

def inI64B (n : Int) : Bool := decide (i64Min ≤ n) && decide (n ≤ i64Max)

/-- FixedPoint::checked_add : i64 checked addition. -/
def checkedAdd (a b : Int) : Option Int :=
  if inI64B (a + b) then some (a + b) else none

/-- FixedPoint::checked_sub : i64 checked subtraction. -/
def checkedSub (a b : Int) : Option Int :=
  if inI64B (a - b) then some (a - b) else none

/-! ## Domain errors (domain/error.rs) -/

inductive DomainError where
  | InsufficientFunds
  | AccountLocked
  | InvalidAmount
  | Overflow
  | AlreadyDisputed
  | NotDisputed
deriving DecidableEq, Repr

instance {ε α : Type} [DecidableEq ε] [DecidableEq α] : DecidableEq (Except ε α) := fun x y =>
  match x, y with
  | .error a, .error b =>
    if h : a = b then isTrue (by rw [h])
    else isFalse (fun hc => by injection hc with h2; exact h h2)
  | .ok a, .ok b =>
    if h : a = b then isTrue (by rw [h])
    else isFalse (fun hc => by injection hc with h2; exact h h2)
  | .error _, .ok _ => isFalse (fun hc => Except.noConfusion hc)
  | .ok _, .error _ => isFalse (fun hc => Except.noConfusion hc)

/-! ## Client account (domain/account.rs) -/

structure ClientAccount where
  client_id : Nat
  available : Int
  held : Int
  locked : Bool
  disputed : List Nat
deriving DecidableEq, Repr

/-- ClientAccount::new : zeroed account. -/
def ClientAccount.new (cid : Nat) : ClientAccount :=
  { client_id := cid, available := 0, held := 0, locked := false, disputed := [] }

/-- ClientAccount::total : derived, never stored. -/
def ClientAccount.total (a : ClientAccount) : Int := a.available + a.held

/-- ClientAccount::is_disputed. -/
def ClientAccount.isDisputed (a : ClientAccount) (tx : Nat) : Bool := a.disputed.contains tx

/-- ClientAccount::add_disputed (HashSet::insert). -/
def ClientAccount.addDisputed (a : ClientAccount) (tx : Nat) : ClientAccount :=
  if a.disputed.contains tx then a else { a with disputed := tx :: a.disputed }

/-- ClientAccount::remove_disputed (HashSet::remove). -/
def ClientAccount.removeDisputed (a : ClientAccount) (tx : Nat) : ClientAccount :=
  { a with disputed := a.disputed.filter (fun t => t ≠ tx) }

/-! ## Domain operations (domain/operations.rs) -/

/-- apply_deposit, translated clause by clause from operations.rs. -/
def applyDeposit (a : ClientAccount) (amount : Int) : Except DomainError ClientAccount :=
  if amount ≤ 0 then .error .InvalidAmount
  else if a.locked then .error .AccountLocked
  else match checkedAdd a.available amount with
    | none => .error .Overflow
    | some v => .ok { a with available := v }

/-- apply_withdrawal, translated clause by clause from operations.rs. -/
def applyWithdrawal (a : ClientAccount) (amount : Int) : Except DomainError ClientAccount :=
  if amount ≤ 0 then .error .InvalidAmount
  else if a.locked then .error .AccountLocked
  else if a.available < amount then .error .InsufficientFunds
  else match checkedSub a.available amount with
    | none => .error .Overflow
    | some v => .ok { a with available := v }

/-- apply_dispute, translated clause by clause from operations.rs.
Both checked computations happen before any field write in the source. -/
def applyDispute (a : ClientAccount) (txId : Nat) (amount : Int) :
    Except DomainError ClientAccount :=
  if a.locked then .error .AccountLocked
  else if a.isDisputed txId then .error .AlreadyDisputed
  else if a.available < amount then .error .InsufficientFunds
  else match checkedSub a.available amount with
    | none => .error .Overflow
    | some nav => match checkedAdd a.held amount with
      | none => .error .Overflow
      | some nh => .ok (({ a with available := nav, held := nh }).addDisputed txId)

/-- apply_resolve, translated clause by clause from operations.rs. -/
def applyResolve (a : ClientAccount) (txId : Nat) (amount : Int) :
    Except DomainError ClientAccount :=
  if a.locked then .error .AccountLocked
  else if !a.isDisputed txId then .error .NotDisputed
  else if a.held < amount then .error .InsufficientFunds
  else match checkedSub a.held amount with
    | none => .error .Overflow
    | some nh => match checkedAdd a.available amount with
      | none => .error .Overflow
      | some nav => .ok (({ a with available := nav, held := nh }).removeDisputed txId)

/-- apply_chargeback, translated clause by clause from operations.rs.
The only operation without a locked-account check and the only one that locks. -/
def applyChargeback (a : ClientAccount) (txId : Nat) (amount : Int) :
    Except DomainError ClientAccount :=
  if !a.isDisputed txId then .error .NotDisputed
  else if a.held < amount then .error .InsufficientFunds
  else match checkedSub a.held amount with
    | none => .error .Overflow
    | some nh => .ok (({ a with held := nh, locked := true }).removeDisputed txId)

/-! ## Specification-side operation tables (spec section 4.2)

Each table row is rendered as an ordered list of (violated-guard, error)
pairs followed by the listed effect; `firstViolation` returns the error of
the first violated precondition, exactly as the table reads. -/

def firstViolation : List (Bool × DomainError) → Option DomainError
  | [] => none
  | (b, e) :: rest => if b then some e else firstViolation rest

/-- Spec table row for deposit (verbatim, including its overflow guard). -/
def specDeposit (a : ClientAccount) (amt : Int) : Except DomainError ClientAccount :=
  match firstViolation
      [(decide (amt ≤ 0), .InvalidAmount),
       (a.locked, .AccountLocked),
       (!inI64B (a.available + amt), .Overflow)] with
  | some e => .error e
  | none => .ok { a with available := a.available + amt }

/-- Spec table row for withdrawal (verbatim; the table lists no overflow guard). -/
def specWithdrawal (a : ClientAccount) (amt : Int) : Except DomainError ClientAccount :=
  match firstViolation
      [(decide (amt ≤ 0), .InvalidAmount),
       (a.locked, .AccountLocked),
       (decide (a.available < amt), .InsufficientFunds)] with
  | some e => .error e
  | none => .ok { a with available := a.available - amt }

/-- Spec table row for dispute exactly as written (no overflow guard). -/
def specDispute (a : ClientAccount) (tx : Nat) (amt : Int) : Except DomainError ClientAccount :=
  match firstViolation
      [(a.locked, .AccountLocked),
       (a.isDisputed tx, .AlreadyDisputed),
       (decide (a.available < amt), .InsufficientFunds)] with
  | some e => .error e
  | none => .ok (({ a with available := a.available - amt, held := a.held + amt }).addDisputed tx)

/-- Dispute table row amended with the checked-arithmetic guards the code enforces. -/
def specDisputeChecked (a : ClientAccount) (tx : Nat) (amt : Int) :
    Except DomainError ClientAccount :=
  match firstViolation
      [(a.locked, .AccountLocked),
       (a.isDisputed tx, .AlreadyDisputed),
       (decide (a.available < amt), .InsufficientFunds),
       (!inI64B (a.available - amt), .Overflow),
       (!inI64B (a.held + amt), .Overflow)] with
  | some e => .error e
  | none => .ok (({ a with available := a.available - amt, held := a.held + amt }).addDisputed tx)

/-- Spec table row for resolve exactly as written (no overflow guard). -/
def specResolve (a : ClientAccount) (tx : Nat) (amt : Int) : Except DomainError ClientAccount :=
  match firstViolation
      [(a.locked, .AccountLocked),
       (!a.isDisputed tx, .NotDisputed),
       (decide (a.held < amt), .InsufficientFunds)] with
  | some e => .error e
  | none => .ok (({ a with available := a.available + amt, held := a.held - amt }).removeDisputed tx)

/-- Resolve table row amended with the checked-arithmetic guards the code enforces. -/
def specResolveChecked (a : ClientAccount) (tx : Nat) (amt : Int) :
    Except DomainError ClientAccount :=
  match firstViolation
      [(a.locked, .AccountLocked),
       (!a.isDisputed tx, .NotDisputed),
       (decide (a.held < amt), .InsufficientFunds),
       (!inI64B (a.held - amt), .Overflow),
       (!inI64B (a.available + amt), .Overflow)] with
  | some e => .error e
  | none => .ok (({ a with available := a.available + amt, held := a.held - amt }).removeDisputed tx)

/-- Spec table row for chargeback exactly as written (no overflow guard). -/
def specChargeback (a : ClientAccount) (tx : Nat) (amt : Int) :
    Except DomainError ClientAccount :=
  match firstViolation
      [(!a.isDisputed tx, .NotDisputed),
       (decide (a.held < amt), .InsufficientFunds)] with
  | some e => .error e
  | none => .ok (({ a with held := a.held - amt, locked := true }).removeDisputed tx)

/-- Chargeback table row amended with the checked-arithmetic guard the code enforces. -/
def specChargebackChecked (a : ClientAccount) (tx : Nat) (amt : Int) :
    Except DomainError ClientAccount :=
  match firstViolation
      [(!a.isDisputed tx, .NotDisputed),
       (decide (a.held < amt), .InsufficientFunds),
       (!inI64B (a.held - amt), .Overflow)] with
  | some e => .error e
  | none => .ok (({ a with held := a.held - amt, locked := true }).removeDisputed tx)

/-! ## Storage layer (storage/error.rs, storage/concurrent.rs,
storage/concurrent_transaction_store.rs)

The DashMap keyed containers are modelled as functions from key to
`Option` value; insertion is pointwise functional update (exactly the
map semantics of `DashMap::insert` / the entry API). -/

inductive StorageError where
  | NotFound
  | IoFailure
  | DomainFault (e : DomainError)
deriving DecidableEq, Repr

def AccountStore := Nat → Option ClientAccount

def emptyAccounts : AccountStore := fun _ => none

def storeSet (s : AccountStore) (c : Nat) (a : ClientAccount) : AccountStore :=
  fun c2 => if c2 = c then some a else s c2

/-- ConcurrentEntry::read : clone of the stored account, or a fresh zeroed
account when absent; never inserts. -/
def entryRead (s : AccountStore) (c : Nat) : ClientAccount :=
  (s c).getD (ClientAccount.new c)

/-- ConcurrentEntry::try_update.  The update closure is modelled as a pure
function returning the account state it leaves behind together with an
optional error (Rust closures receive `&mut ClientAccount` and may mutate
before erroring).  Occupied entry: the closure runs on the live account, so
whatever state it leaves is kept even when it errors (the source performs no
rollback).  Vacant entry: the closure runs on a fresh account which is
inserted only when the closure succeeds. -/
def tryUpdate (s : AccountStore) (c : Nat)
    (f : ClientAccount → ClientAccount × Option DomainError) :
    AccountStore × Option StorageError :=
  match s c with
  | some a =>
    let r := f a
    (storeSet s c r.1, r.2.map StorageError.DomainFault)
  | none =>
    let r := f (ClientAccount.new c)
    match r.2 with
    | none => (storeSet s c r.1, none)
    | some e => (s, some (StorageError.DomainFault e))

/-- Adapts a domain operation (compute-then-write, hence leaving the account
untouched on error) to the mutable-closure shape expected by `tryUpdate`. -/
def toUpdateFn (g : ClientAccount → Except DomainError ClientAccount) :
    ClientAccount → ClientAccount × Option DomainError :=
  fun a => match g a with
  | .ok a2 => (a2, none)
  | .error e => (a, some e)

/-! ## Transaction log (domain/transaction.rs, concurrent_transaction_store.rs) -/

structure TransactionRecord where
  client_id : Nat
  amount : Int
deriving DecidableEq, Repr

def TxLog := Nat → Option TransactionRecord

def emptyLog : TxLog := fun _ => none

/-- ConcurrentTransactionStore::insert (overwrite on duplicate id). -/
def logInsert (l : TxLog) (tx : Nat) (r : TransactionRecord) : TxLog :=
  fun t2 => if t2 = tx then some r else l t2

/-! ## Events and engine errors (domain/transaction.rs, engine/error.rs) -/

inductive Transaction where
  | Deposit (client_id : Nat) (tx_id : Nat) (amount : Int)
  | Withdrawal (client_id : Nat) (tx_id : Nat) (amount : Int)
  | Dispute (client_id : Nat) (tx_id : Nat)
  | Resolve (client_id : Nat) (tx_id : Nat)
  | Chargeback (client_id : Nat) (tx_id : Nat)
deriving DecidableEq, Repr

def Transaction.clientId : Transaction → Nat
  | .Deposit c _ _ => c
  | .Withdrawal c _ _ => c
  | .Dispute c _ => c
  | .Resolve c _ => c
  | .Chargeback c _ => c

inductive EngineError where
  | TransactionNotFound (t : Nat)
  | TransactionNotDisputed (t : Nat)
  | TransactionAlreadyDisputed (t : Nat)
  | CannotDisputeWithdrawal
  | Domain (e : DomainError)
  | Storage (e : StorageError)
deriving DecidableEq, Repr

/-! ## Transaction processor (engine/processor.rs) -/

structure EngineState where
  accounts : AccountStore
  txLog : TxLog

def initialState : EngineState := { accounts := emptyAccounts, txLog := emptyLog }

/-- TransactionProcessor::process_deposit. -/
def processDeposit (st : EngineState) (c t : Nat) (amount : Int) :
    EngineState × Except EngineError Unit :=
  let u := tryUpdate st.accounts c (toUpdateFn (fun a => applyDeposit a amount))
  match u.2 with
  | some e => ({ st with accounts := u.1 }, .error (.Storage e))
  | none =>
    ({ accounts := u.1, txLog := logInsert st.txLog t ⟨c, amount⟩ }, .ok ())

/-- TransactionProcessor::process_withdrawal (also records the transaction). -/
def processWithdrawal (st : EngineState) (c t : Nat) (amount : Int) :
    EngineState × Except EngineError Unit :=
  let u := tryUpdate st.accounts c (toUpdateFn (fun a => applyWithdrawal a amount))
  match u.2 with
  | some e => ({ st with accounts := u.1 }, .error (.Storage e))
  | none =>
    ({ accounts := u.1, txLog := logInsert st.txLog t ⟨c, amount⟩ }, .ok ())

/-- TransactionProcessor::process_dispute. -/
def processDispute (st : EngineState) (c t : Nat) : EngineState × Except EngineError Unit :=
  match st.txLog t with
  | none => (st, .error (.TransactionNotFound t))
  | some rec =>
    if rec.client_id ≠ c then (st, .error (.TransactionNotFound t))
    else
      let u := tryUpdate st.accounts c (toUpdateFn (fun a => applyDispute a t rec.amount))
      match u.2 with
      | some e => ({ st with accounts := u.1 }, .error (.Storage e))
      | none => ({ st with accounts := u.1 }, .ok ())

/-- TransactionProcessor::process_resolve. -/
def processResolve (st : EngineState) (c t : Nat) : EngineState × Except EngineError Unit :=
  match st.txLog t with
  | none => (st, .error (.TransactionNotFound t))
  | some rec =>
    if rec.client_id ≠ c then (st, .error (.TransactionNotFound t))
    else
      let u := tryUpdate st.accounts c (toUpdateFn (fun a => applyResolve a t rec.amount))
      match u.2 with
      | some e => ({ st with accounts := u.1 }, .error (.Storage e))
      | none => ({ st with accounts := u.1 }, .ok ())

/-- TransactionProcessor::process_chargeback. -/
def processChargeback (st : EngineState) (c t : Nat) : EngineState × Except EngineError Unit :=
  match st.txLog t with
  | none => (st, .error (.TransactionNotFound t))
  | some rec =>
    if rec.client_id ≠ c then (st, .error (.TransactionNotFound t))
    else
      let u := tryUpdate st.accounts c (toUpdateFn (fun a => applyChargeback a t rec.amount))
      match u.2 with
      | some e => ({ st with accounts := u.1 }, .error (.Storage e))
      | none => ({ st with accounts := u.1 }, .ok ())

/-- TransactionProcessor::process_transaction (dispatch on the event tag). -/
def processTransaction (st : EngineState) : Transaction → EngineState × Except EngineError Unit
  | .Deposit c t a => processDeposit st c t a
  | .Withdrawal c t a => processWithdrawal st c t a
  | .Dispute c t => processDispute st c t
  | .Resolve c t => processResolve st c t
  | .Chargeback c t => processChargeback st c t

/-- One processor folding over an event trace (errors are per-event and the
fold continues with the possibly-updated state). -/
def runTrace (trace : List Transaction) : EngineState :=
  trace.foldl (fun st tx => (processTransaction st tx).1) initialState

/-! ## Stream processing (streaming/error.rs, streaming/processor.rs) -/

inductive IoError where
  | Csv
  | CsvAsync
  | Transport
  | InvalidTransactionType (s : String)
  | MissingField (s : String)
  | InvalidAmountText (s : String)
  | Domain (e : DomainError)
  | Storage (e : StorageError)
deriving DecidableEq, Repr

/-- An element of a transaction stream: a parsed event or a source-side error. -/
def StreamItem := Except IoError Transaction

/-- ErrorPolicy: two hooks, each returning continue (true) or abort (false). -/
structure ErrorPolicy where
  handleIoError : IoError → Bool
  handleEngineError : EngineError → Bool

/-- StreamProcessor::process_shard_stream: consume the combined stream,
processing events and consulting the policy on each error; returns the final
shared state together with the shard's success flag. -/
def processShardStream (items : List StreamItem) (policy : ErrorPolicy)
    (st : EngineState) : EngineState × Bool :=
  match items with
  | [] => (st, true)
  | item :: rest =>
    match item with
    | .ok tx =>
      let r := processTransaction st tx
      match r.2 with
      | .ok _ => processShardStream rest policy r.1
      | .error e =>
        if policy.handleEngineError e then processShardStream rest policy r.1
        else (r.1, false)
    | .error e =>
      if policy.handleIoError e then processShardStream rest policy st
      else (st, false)

/-- The Chain combinator: `stream::iter(shard_streams).flatten()` consumes
the shard's streams fully in assignment order. -/
def chainCombine (streams : List (List StreamItem)) : List StreamItem := streams.flatten

/-- A shard running under the Chain combinator (combine, then process). -/
def chainShardRun (streams : List (List StreamItem)) (policy : ErrorPolicy)
    (st : EngineState) : EngineState × Bool :=
  processShardStream (chainCombine streams) policy st

/-! ## Shard assignment (streaming/processor.rs, StreamProcessor::process) -/

inductive ShardAssignment where
  | RoundRobin
  | Sequential
  | Custom (f : Nat → Nat)

/-- The shard index computed inside the assignment loop of process(). -/
def shardIndex (assignment : ShardAssignment) (numShards totalStreams i : Nat) : Nat :=
  match assignment with
  | .RoundRobin => i % numShards
  | .Sequential => min (i / ((totalStreams + numShards - 1) / numShards)) (numShards - 1)
  | .Custom f => f i % numShards

/-- `shards[idx].push(stream)` on the Vec of shard buckets. -/
def pushAt : List (List α) → Nat → α → List (List α)
  | [], _, _ => []
  | l :: rest, 0, x => (l ++ [x]) :: rest
  | l :: rest, n + 1, x => l :: pushAt rest n x

/-- The assignment loop of StreamProcessor::process: start from `numShards`
empty buckets and push each enumerated stream into its computed bucket. -/
def buildShards (assignment : ShardAssignment) (numShards : Nat) (streams : List α) :
    List (List α) :=
  streams.enum.foldl
    (fun shards p => pushAt shards (shardIndex assignment numShards streams.length p.1) p.2)
    (List.replicate numShards [])

/-- Specification-side description: the bucket of shard `k` under index map
`g` holds exactly the streams whose index maps to `k`, in insertion order. -/
def assignedTo (g : Nat → Nat) (k : Nat) (streams : List α) : List α :=
  (streams.enum.filter (fun p => g p.1 = k)).map Prod.snd

/-! ## Decimal codec (domain/amount.rs)

`FixedPoint::from_decimal_str` and `to_decimal_string`, embedded at the
character-list level.  `str::trim` is modelled on the ASCII whitespace
characters (space, tab, newline, carriage return); `str::parse::<i64>` is
modelled by `rustParseI64` (optional '+'/'-' sign, one or more decimal
digits, value within the i64 range). -/

def isWSChar (c : Char) : Bool :=
  c.toNat = 32 || c.toNat = 9 || c.toNat = 10 || c.toNat = 13

def trimWS (cs : List Char) : List Char :=
  ((cs.dropWhile isWSChar).reverse.dropWhile isWSChar).reverse

def isDigitChar (c : Char) : Bool := 48 ≤ c.toNat && c.toNat ≤ 57

def digitVal (c : Char) : Nat := c.toNat - 48

def digitsToNat (cs : List Char) : Nat := cs.foldl (fun n c => 10 * n + digitVal c) 0

/-- Syntax accepted by `str::parse::<i64>`: optional sign, then 1+ digits. -/
def intSyntaxOk (cs : List Char) : Bool :=
  match cs with
  | [] => false
  | c :: rest =>
    if c = '+' || c = '-' then !rest.isEmpty && rest.all isDigitChar
    else cs.all isDigitChar

/-- Signed value of an integer literal (sign applied to the digit run). -/
def intSignedVal (cs : List Char) : Int :=
  match cs with
  | c :: rest =>
    if c = '-' then -(digitsToNat rest : Int)
    else if c = '+' then (digitsToNat rest : Int)
    else (digitsToNat cs : Int)
  | [] => 0

/-- `str::parse::<i64>`: syntax check plus range check (Rust detects
out-of-range values during accumulation; the result is the same). -/
def rustParseI64 (cs : List Char) : Option Int :=
  if intSyntaxOk cs && inI64B (intSignedVal cs) then some (intSignedVal cs) else none

/-- `s.split('.').collect()` on a character list. -/
def splitOnDot : List Char → List (List Char)
  | [] => [[]]
  | c :: rest =>
    if c = '.' then [] :: splitOnDot rest
    else
      match splitOnDot rest with
      | h :: t => (c :: h) :: t
      | [] => [[c]]

/-- `format!("\x7b:0<4\x7d", decimal_part)`: pad on the right with '0' to width 4. -/
def padRight4 (cs : List Char) : List Char := cs ++ List.replicate (4 - cs.length) '0'

/-- Tail of from_decimal_str once the integer / decimal parts are split. -/
def fromParts (neg : Bool) (ip dp : List Char) : Except DomainError Int :=
  if dp.length > 4 then .error .InvalidAmount
  else
    match rustParseI64 ip with
    | none => .error .InvalidAmount
    | some integer =>
      match rustParseI64 (padRight4 dp) with
      | none => .error .InvalidAmount
      | some dec =>
        if !inI64B (integer * 10000) then .error .Overflow
        else if !inI64B (integer * 10000 + dec) then .error .Overflow
        else .ok (if neg then -(integer * 10000 + dec) else integer * 10000 + dec)

/-- FixedPoint::from_decimal_str, translated clause by clause. -/
def fromDecimalStr (s : String) : Except DomainError Int :=
  let t := trimWS s.data
  let neg : Bool := t.head? = some '-'
  let body := if t.head? = some '-' then t.tail else t
  match splitOnDot body with
  | [ip] => fromParts neg ip []
  | [ip, dp] => fromParts neg ip dp
  | _ => .error .InvalidAmount

/-- Decimal rendering of a natural number (`format!("\x7b\x7d", n)`). -/
def digitChar (n : Nat) : Char := Char.ofNat (48 + n)

def natRepr (n : Nat) : List Char :=
  if _h : n < 10 then [digitChar n]
  else natRepr (n / 10) ++ [digitChar (n % 10)]
decreasing_by exact Nat.div_lt_self (by omega) (by omega)

/-- `format!("\x7b:04\x7d", n)`: pad on the left with '0' to width 4. -/
def leftPad4 (cs : List Char) : List Char := List.replicate (4 - cs.length) '0' ++ cs

/-- FixedPoint::to_decimal_string, translated clause by clause. -/
def toDecimalString (v : Int) : String :=
  let absv := v.natAbs
  let signChars : List Char := if v < 0 then ['-'] else []
  ⟨signChars ++ natRepr (absv / 10000) ++ '.' :: leftPad4 (natRepr (absv % 10000))⟩

/-! ## Specification-side text grammar (spec section 4.1, claims C4/C6) -/

/-- The grammar claimed for parse: after trimming, an optional leading '-',
a non-empty run of decimal digits, and optionally '.' followed by 1-4
decimal digits. -/
def claimedGrammar (s : String) : Bool :=
  let t := trimWS s.data
  let body := if t.head? = some '-' then t.tail else t
  let ds := body.takeWhile isDigitChar
  let rest := body.dropWhile isDigitChar
  !ds.isEmpty &&
    (rest.isEmpty ||
      (rest.head? = some '.' && !rest.tail.isEmpty && rest.tail.length ≤ 4 &&
        rest.tail.all isDigitChar))

/-- Sign / integer-part / fractional-part decomposition of an amount text
(after trimming and stripping one leading '-'); the fractional part is
everything after the first '.', or empty when there is no '.'. -/
def decomposeAmount (s : String) : Bool × List Char × List Char :=
  let t := trimWS s.data
  let neg : Bool := t.head? = some '-'
  let body := if t.head? = some '-' then t.tail else t
  (neg, body.takeWhile (fun c => c ≠ '.'), (body.dropWhile (fun c => c ≠ '.')).tail)

/-- Amended acceptance predicate: the integer part must be accepted by the
signed 64-bit parser, and the fractional part (if a '.' is present) must
have at most 4 characters and be accepted by the same parser after
right-padding with '0' to four places. -/
def amendedAccepts (s : String) : Bool :=
  let t := trimWS s.data
  let body := if t.head? = some '-' then t.tail else t
  let ip := body.takeWhile (fun c => c ≠ '.')
  let rest := body.dropWhile (fun c => c ≠ '.')
  (rustParseI64 ip).isSome &&
    (rest.isEmpty || (rest.tail.length ≤ 4 && (rustParseI64 (padRight4 rest.tail)).isSome))

/-- Specification-side parse per the amended claim: reject non-grammar
inputs with InvalidAmount, reject scale/combine overflow with Overflow,
otherwise produce the signed scaled value. -/
def amendedSpecParse (s : String) : Except DomainError Int :=
  let d := decomposeAmount s
  if amendedAccepts s then
    let integer := intSignedVal d.2.1
    let dec := intSignedVal (padRight4 d.2.2)
    if inI64B (integer * 10000) && inI64B (integer * 10000 + dec) then
      .ok (if d.1 then -(integer * 10000 + dec) else integer * 10000 + dec)
    else .error .Overflow
  else .error .InvalidAmount

/-- The scaled magnitude denoted by a text of the claimed grammar. -/
def grammarScaled (s : String) : Nat :=
  let d := decomposeAmount s
  digitsToNat d.2.1 * 10000 + digitsToNat (padRight4 d.2.2)

/-- Canonical form of a grammar text: the same number, rendered with the
integer part in canonical decimal (no leading zeros), the fractional part
zero-padded on the right to exactly 4 digits, and the '-' sign dropped when
the value is zero. -/
def canonicalize (s : String) : String :=
  let d := decomposeAmount s
  ⟨(if d.1 && grammarScaled s ≠ 0 then ['-'] else []) ++
    natRepr (digitsToNat d.2.1) ++ '.' :: padRight4 d.2.2⟩

/-! ## Claim C1: the five domain operations versus the section 4.2 table -/

theorem applyDeposit_eq_spec (a : ClientAccount) (amt : Int) :
    applyDeposit a amt = specDeposit a amt := by
  unfold applyDeposit specDeposit firstViolation checkedAdd
  by_cases h1 : amt ≤ 0 <;> by_cases h2 : a.locked = true <;>
    by_cases h3 : inI64B (a.available + amt) = true <;>
    simp [h1, h2, h3, firstViolation]

theorem applyWithdrawal_eq_spec (a : ClientAccount) (amt : Int)
    (h : a.available ≤ i64Max) :
    applyWithdrawal a amt = specWithdrawal a amt := by
  unfold applyWithdrawal specWithdrawal firstViolation checkedSub
  by_cases h1 : amt ≤ 0 <;> by_cases h2 : a.locked = true <;>
    by_cases h3 : a.available < amt <;>
    simp [h1, h2, h3, firstViolation]
  have : inI64B (a.available - amt) = true := by
    simp only [inI64B, i64Min, i64Max, Bool.and_eq_true, decide_eq_true_eq] at *
    omega
  simp [this, firstViolation]

theorem applyDispute_eq_spec (a : ClientAccount) (tx : Nat) (amt : Int) :
    applyDispute a tx amt = specDisputeChecked a tx amt := by
  unfold applyDispute specDisputeChecked firstViolation checkedSub checkedAdd
  by_cases h1 : a.locked = true <;> by_cases h2 : a.isDisputed tx = true <;>
    by_cases h3 : a.available < amt <;>
    by_cases h4 : inI64B (a.available - amt) = true <;>
    by_cases h5 : inI64B (a.held + amt) = true <;>
    simp [h1, h2, h3, h4, h5, firstViolation]

theorem applyResolve_eq_spec (a : ClientAccount) (tx : Nat) (amt : Int) :
    applyResolve a tx amt = specResolveChecked a tx amt := by
  unfold applyResolve specResolveChecked firstViolation checkedSub checkedAdd
  by_cases h1 : a.locked = true <;> by_cases h2 : a.isDisputed tx = true <;>
    by_cases h3 : a.held < amt <;>
    by_cases h4 : inI64B (a.held - amt) = true <;>
    by_cases h5 : inI64B (a.available + amt) = true <;>
    simp [h1, h2, h3, h4, h5, firstViolation]

theorem applyChargeback_eq_spec (a : ClientAccount) (tx : Nat) (amt : Int) :
    applyChargeback a tx amt = specChargebackChecked a tx amt := by
  unfold applyChargeback specChargebackChecked firstViolation checkedSub
  by_cases h1 : a.isDisputed tx = true <;> by_cases h2 : a.held < amt <;>
    by_cases h3 : inI64B (a.held - amt) = true <;>
    simp [h1, h2, h3, firstViolation]

/-- C1 (amended): with the account's balances in i64 range, each of the five
domain operations checks its preconditions in exactly the order of the
section 4.2 table and performs exactly the listed update, except that
dispute, resolve and chargeback additionally fail with Overflow (account
unchanged) when a checked balance adjustment would leave the i64 range;
those guards come right after the listed preconditions, in evaluation
order.  Errors carry no updated account: the account is unchanged. -/
theorem c1_operations_match_amended_table (a : ClientAccount) (amt : Int) (tx : Nat)
    (h : a.available ≤ i64Max) :
    applyDeposit a amt = specDeposit a amt ∧
    applyWithdrawal a amt = specWithdrawal a amt ∧
    applyDispute a tx amt = specDisputeChecked a tx amt ∧
    applyResolve a tx amt = specResolveChecked a tx amt ∧
    applyChargeback a tx amt = specChargebackChecked a tx amt :=
  ⟨applyDeposit_eq_spec a amt, applyWithdrawal_eq_spec a amt h,
   applyDispute_eq_spec a tx amt, applyResolve_eq_spec a tx amt,
   applyChargeback_eq_spec a tx amt⟩

/-- A concrete account used by witnesses: client 1, available 5, held 0,
unlocked, no disputes. -/
def sampleAcct : ClientAccount := ⟨1, 5, 0, false, []⟩

/-- C1 witness: the amended table agreement evaluated at a concrete account. -/
theorem c1_operations_match_amended_table_witness :
    applyDeposit sampleAcct 3 = specDeposit sampleAcct 3 ∧
    applyWithdrawal sampleAcct 3 = specWithdrawal sampleAcct 3 ∧
    applyDispute sampleAcct 2 3 = specDisputeChecked sampleAcct 2 3 ∧
    applyResolve sampleAcct 2 3 = specResolveChecked sampleAcct 2 3 ∧
    applyChargeback sampleAcct 2 3 = specChargebackChecked sampleAcct 2 3 :=
  c1_operations_match_amended_table sampleAcct 3 2 (by decide)

/-- C1 counterexample: on a zeroed unlocked account, every precondition of
the section 4.2 dispute row holds for the amount i64Min (available 0 is not
below i64Min, the account is not locked, tx 1 is not disputed), so the
claimed table prescribes the listed update; the code instead returns
Overflow from the checked subtraction and performs no update. -/
theorem c1_claim_counterexample :
    specDispute (ClientAccount.new 1) 1 i64Min =
      .ok ⟨1, 2 ^ 63, -(2 ^ 63), false, [1]⟩ ∧
    applyDispute (ClientAccount.new 1) 1 i64Min = .error .Overflow :=
  ⟨rfl, rfl⟩

/-! ## Claim C3: try_update error semantics -/

theorem storeSet_self (s : AccountStore) (c : Nat) (a : ClientAccount)
    (h : s c = some a) : storeSet s c a = s := by
  funext c2
  unfold storeSet
  by_cases hc : c2 = c
  · subst hc; simp [h.symm]
  · simp [hc]

/-- C3 (amended): if the update closure returns an error then no account is
created for an absent client (the store is exactly as before; lookup and
read alone never persist), while an existing account is left in whatever
state the closure produced — which is the pre-call state exactly when the
closure did not mutate before erroring (true of every domain operation).
An account is persisted on the first successful mutation. -/
theorem c3_try_update_error_semantics (s : AccountStore) (c : Nat)
    (f : ClientAccount → ClientAccount × Option DomainError) :
    (s c = none → (f (ClientAccount.new c)).2 ≠ none → (tryUpdate s c f).1 = s) ∧
    (∀ a, s c = some a → (tryUpdate s c f).1 = storeSet s c (f a).1) ∧
    (∀ a, s c = some a → (f a).1 = a → (tryUpdate s c f).1 = s) ∧
    (s c = none → (f (ClientAccount.new c)).2 = none →
      (tryUpdate s c f).1 = storeSet s c (f (ClientAccount.new c)).1) := by
  refine ⟨?_, ?_, ?_, ?_⟩
  · intro h hne
    unfold tryUpdate
    rw [h]
    rcases he : (f (ClientAccount.new c)).2 with _ | e
    · exact absurd he hne
    · simp [he]
  · intro a ha
    unfold tryUpdate
    rw [ha]
  · intro a ha hfa
    unfold tryUpdate
    rw [ha]
    simp only [hfa]
    exact storeSet_self s c a ha
  · intro h hok
    unfold tryUpdate
    rw [h]
    simp [hok]

/-- C3 witness: a closure that leaves the account untouched and errors
leaves a populated store unchanged. -/
theorem c3_try_update_error_semantics_witness :
    (tryUpdate (storeSet emptyAccounts 1 sampleAcct) 1
        (fun a => (a, some DomainError.AccountLocked))).1 =
      storeSet emptyAccounts 1 sampleAcct :=
  (c3_try_update_error_semantics (storeSet emptyAccounts 1 sampleAcct) 1
      (fun a => (a, some DomainError.AccountLocked))).2.2.1 sampleAcct rfl rfl

/-- C3 counterexample: the claim promises the pre-call state for every
closure, including ones that mutate before erroring.  A closure that zeroes
the available balance and then errors leaves the zeroed account in the
store: the stored account for client 1 changes from available 5 to
available 0 even though try_update reported the error. -/
theorem c3_claim_counterexample :
    (tryUpdate (storeSet emptyAccounts 1 sampleAcct) 1
        (fun a => ({ a with available := 0 }, some DomainError.InvalidAmount))).2 =
      some (StorageError.DomainFault DomainError.InvalidAmount) ∧
    (storeSet emptyAccounts 1 sampleAcct) 1 = some ⟨1, 5, 0, false, []⟩ ∧
    (tryUpdate (storeSet emptyAccounts 1 sampleAcct) 1
        (fun a => ({ a with available := 0 }, some DomainError.InvalidAmount))).1 1 =
      some ⟨1, 0, 0, false, []⟩ :=
  ⟨rfl, rfl, rfl⟩

/-! ## Claim C5: dispute / resolve / chargeback lookup in the processor -/

/-- Specification-side shape of the tail of the three reference operations:
apply the domain operation through the store entry and wrap the outcome. -/
def applyViaStore (st : EngineState) (c : Nat)
    (g : ClientAccount → Except DomainError ClientAccount) :
    EngineState × Except EngineError Unit :=
  let u := tryUpdate st.accounts c (toUpdateFn g)
  match u.2 with
  | some e => ({ st with accounts := u.1 }, .error (.Storage e))
  | none => ({ st with accounts := u.1 }, .ok ())

/-- C5: a Dispute, Resolve or Chargeback for (c, t) returns
TransactionNotFound(t) with the whole state (accounts and log) unchanged
when the log has no record for t or the record belongs to another client;
otherwise it applies the corresponding domain operation with the amount
taken from the log record. -/
theorem c5_reference_lookup_semantics (st : EngineState) (c t : Nat) :
    (st.txLog t = none →
      processTransaction st (.Dispute c t) = (st, .error (.TransactionNotFound t)) ∧
      processTransaction st (.Resolve c t) = (st, .error (.TransactionNotFound t)) ∧
      processTransaction st (.Chargeback c t) = (st, .error (.TransactionNotFound t))) ∧
    (∀ r, st.txLog t = some r → r.client_id ≠ c →
      processTransaction st (.Dispute c t) = (st, .error (.TransactionNotFound t)) ∧
      processTransaction st (.Resolve c t) = (st, .error (.TransactionNotFound t)) ∧
      processTransaction st (.Chargeback c t) = (st, .error (.TransactionNotFound t))) ∧
    (∀ r, st.txLog t = some r → r.client_id = c →
      processTransaction st (.Dispute c t) =
        applyViaStore st c (fun a => applyDispute a t r.amount) ∧
      processTransaction st (.Resolve c t) =
        applyViaStore st c (fun a => applyResolve a t r.amount) ∧
      processTransaction st (.Chargeback c t) =
        applyViaStore st c (fun a => applyChargeback a t r.amount)) := by
  refine ⟨?_, ?_, ?_⟩
  · intro h
    refine ⟨?_, ?_, ?_⟩ <;>
      simp [processTransaction, processDispute, processResolve, processChargeback, h]
  · intro r hr hne
    refine ⟨?_, ?_, ?_⟩ <;>
      simp [processTransaction, processDispute, processResolve, processChargeback, hr, hne]
  · intro r hr hcl
    refine ⟨?_, ?_, ?_⟩ <;>
      simp [processTransaction, processDispute, processResolve, processChargeback, hr, hcl,
        applyViaStore]

/-- Sample engine state for witnesses: one log record (tx 7 by client 1,
amount 5) and no accounts. -/
def sampleState : EngineState :=
  { accounts := emptyAccounts, txLog := logInsert emptyLog 7 ⟨1, 5⟩ }

/-- C5 witness: a dispute of tx 7 by client 2 (the record belongs to client
1) reports TransactionNotFound and leaves the state untouched. -/
theorem c5_reference_lookup_semantics_witness :
    processTransaction sampleState (.Dispute 2 7) =
      (sampleState, .error (.TransactionNotFound 7)) ∧
    processTransaction sampleState (.Resolve 2 7) =
      (sampleState, .error (.TransactionNotFound 7)) ∧
    processTransaction sampleState (.Chargeback 2 7) =
      (sampleState, .error (.TransactionNotFound 7)) :=
  (c5_reference_lookup_semantics sampleState 2 7).2.1 ⟨1, 5⟩ rfl (by decide)

/-! ## Claim C9: withdrawals are dispute-eligible -/

theorem processTransaction_never_cdw (st : EngineState) (ev : Transaction) :
    (processTransaction st ev).2 ≠ .error .CannotDisputeWithdrawal := by
  cases ev <;>
    simp only [processTransaction, processDeposit, processWithdrawal, processDispute,
      processResolve, processChargeback] <;>
    (repeat' split) <;> simp

/-- Account state after a successful dispute of tx t for amount amt. -/
def disputeOkAccount (a : ClientAccount) (t : Nat) (amt : Int) : ClientAccount :=
  ({ a with available := a.available - amt, held := a.held + amt }).addDisputed t

/-- Engine state after a successful dispute applied through the store. -/
def disputeOkState (st : EngineState) (c t : Nat) (amt : Int) : EngineState :=
  { st with accounts :=
      storeSet st.accounts c (disputeOkAccount (entryRead st.accounts c) t amt) }

/-- C9: a successful Withdrawal(c, t, a) stores the log record (c, a) for t;
the processor never returns CannotDisputeWithdrawal for any event; and a
subsequent Dispute(c, t) follows the ordinary dispute rules: when the
account is unlocked, t is not yet disputed, a fits inside available, and the
checked arithmetic stays in range, the dispute succeeds and moves a from
available to held while marking t disputed. -/
theorem c9_withdrawal_disputable (st st2 : EngineState) (c t : Nat) (amt : Int)
    (hw : processTransaction st (.Withdrawal c t amt) = (st2, .ok ())) :
    st2.txLog t = some ⟨c, amt⟩ ∧
    (∀ st3 ev, (processTransaction st3 ev).2 ≠ .error .CannotDisputeWithdrawal) ∧
    ((entryRead st2.accounts c).locked = false →
      (entryRead st2.accounts c).isDisputed t = false →
      amt ≤ (entryRead st2.accounts c).available →
      inI64B ((entryRead st2.accounts c).available - amt) = true →
      inI64B ((entryRead st2.accounts c).held + amt) = true →
      processTransaction st2 (.Dispute c t) = (disputeOkState st2 c t amt, .ok ())) := by
  have hlog : st2.txLog t = some ⟨c, amt⟩ := by
    simp only [processTransaction, processWithdrawal] at hw
    rcases hu : (tryUpdate st.accounts c (toUpdateFn fun a => applyWithdrawal a amt)).2 with
      _ | e
    · rw [hu] at hw
      have h2 := congrArg Prod.fst hw
      simp only [] at h2
      rw [← h2]
      simp [logInsert]
    · rw [hu] at hw
      simp at hw
  refine ⟨hlog, fun st3 ev => processTransaction_never_cdw st3 ev, ?_⟩
  intro hl hd hle hs1 hs2
  have happ : applyDispute (entryRead st2.accounts c) t amt =
      .ok (disputeOkAccount (entryRead st2.accounts c) t amt) := by
    unfold applyDispute checkedSub checkedAdd disputeOkAccount
    rw [hl, hd]
    simp [not_lt.mpr hle, hs1, hs2]
  simp only [processTransaction, processDispute, hlog]
  rw [if_neg (by simp)]
  rcases hacc : st2.accounts c with _ | a
  · have hread : entryRead st2.accounts c = ClientAccount.new c := by
      unfold entryRead; rw [hacc]; rfl
    rw [hread] at happ
    unfold tryUpdate toUpdateFn
    rw [hacc]
    simp only [happ]
    unfold disputeOkState
    rw [hread]
  · have hread : entryRead st2.accounts c = a := by
      unfold entryRead; rw [hacc]; rfl
    rw [hread] at happ
    unfold tryUpdate toUpdateFn
    rw [hacc]
    simp only [happ]
    unfold disputeOkState
    rw [hread]
    rfl

/-- Engine state for the C9 witness: client 1 holds 10 available. -/
def c9State : EngineState :=
  { accounts := storeSet emptyAccounts 1 ⟨1, 10, 0, false, []⟩, txLog := emptyLog }

/-- C9 witness: withdraw 3 as tx 5, then dispute tx 5; 3 moves from
available to held and tx 5 becomes disputed. -/
theorem c9_withdrawal_disputable_witness :
    (processTransaction c9State (.Withdrawal 1 5 3)).1.txLog 5 = some ⟨1, 3⟩ ∧
    processTransaction (processTransaction c9State (.Withdrawal 1 5 3)).1 (.Dispute 1 5) =
      (disputeOkState (processTransaction c9State (.Withdrawal 1 5 3)).1 1 5 3, .ok ()) := by
  have h := c9_withdrawal_disputable c9State
    (processTransaction c9State (.Withdrawal 1 5 3)).1 1 5 3 rfl
  exact ⟨h.1, h.2.2 rfl rfl (by decide) (by decide) (by decide)⟩

/-! ## Claims C2 and C10: balance and log invariants of the processor -/

theorem addDisputed_available (a : ClientAccount) (tx : Nat) :
    (a.addDisputed tx).available = a.available := by
  unfold ClientAccount.addDisputed; split <;> rfl

theorem addDisputed_held (a : ClientAccount) (tx : Nat) :
    (a.addDisputed tx).held = a.held := by
  unfold ClientAccount.addDisputed; split <;> rfl

theorem removeDisputed_available (a : ClientAccount) (tx : Nat) :
    (a.removeDisputed tx).available = a.available := rfl

theorem removeDisputed_held (a : ClientAccount) (tx : Nat) :
    (a.removeDisputed tx).held = a.held := rfl

theorem applyDeposit_ok_inv {a b : ClientAccount} {amt : Int}
    (h : applyDeposit a amt = .ok b) :
    0 < amt ∧ b.available = a.available + amt ∧ b.held = a.held := by
  unfold applyDeposit checkedAdd at h
  split_ifs at h
  all_goals first
    | exact Except.noConfusion h
    | (replace h : Except.ok { a with available := a.available + amt } = Except.ok b := h
       injection h with hb
       subst hb
       exact ⟨by omega, rfl, rfl⟩)

theorem applyWithdrawal_ok_inv {a b : ClientAccount} {amt : Int}
    (h : applyWithdrawal a amt = .ok b) :
    0 < amt ∧ amt ≤ a.available ∧ b.available = a.available - amt ∧ b.held = a.held := by
  unfold applyWithdrawal checkedSub at h
  split_ifs at h
  all_goals first
    | exact Except.noConfusion h
    | (replace h : Except.ok { a with available := a.available - amt } = Except.ok b := h
       injection h with hb
       subst hb
       exact ⟨by omega, by omega, rfl, rfl⟩)

theorem applyDispute_ok_inv {a b : ClientAccount} {tx : Nat} {amt : Int}
    (h : applyDispute a tx amt = .ok b) :
    amt ≤ a.available ∧ b.available = a.available - amt ∧ b.held = a.held + amt := by
  unfold applyDispute checkedSub checkedAdd at h
  split_ifs at h
  all_goals first
    | exact Except.noConfusion h
    | (replace h : Except.ok
          (({ a with available := a.available - amt, held := a.held + amt }).addDisputed tx) =
          Except.ok b := h
       injection h with hb
       subst hb
       exact ⟨by omega, addDisputed_available _ _, addDisputed_held _ _⟩)

theorem applyResolve_ok_inv {a b : ClientAccount} {tx : Nat} {amt : Int}
    (h : applyResolve a tx amt = .ok b) :
    amt ≤ a.held ∧ b.available = a.available + amt ∧ b.held = a.held - amt := by
  unfold applyResolve checkedSub checkedAdd at h
  split_ifs at h
  all_goals first
    | exact Except.noConfusion h
    | (replace h : Except.ok
          (({ a with available := a.available + amt, held := a.held - amt }).removeDisputed tx) =
          Except.ok b := h
       injection h with hb
       subst hb
       exact ⟨by omega, removeDisputed_available _ _, removeDisputed_held _ _⟩)

theorem applyChargeback_ok_inv {a b : ClientAccount} {tx : Nat} {amt : Int}
    (h : applyChargeback a tx amt = .ok b) :
    amt ≤ a.held ∧ b.available = a.available ∧ b.held = a.held - amt := by
  unfold applyChargeback checkedSub at h
  split_ifs at h
  all_goals first
    | exact Except.noConfusion h
    | (replace h : Except.ok
          (({ a with held := a.held - amt, locked := true }).removeDisputed tx) =
          Except.ok b := h
       injection h with hb
       subst hb
       exact ⟨by omega, removeDisputed_available _ _, removeDisputed_held _ _⟩)

/-- Nonnegative balances, pointwise on an account. -/
def NonnegAcct (a : ClientAccount) : Prop := 0 ≤ a.available ∧ 0 ≤ a.held

/-- Every stored account has nonnegative balances. -/
def NonnegStore (s : AccountStore) : Prop :=
  ∀ c a, s c = some a → NonnegAcct a

/-- Every log record carries a strictly positive amount. -/
def PositiveLog (l : TxLog) : Prop :=
  ∀ t r, l t = some r → 0 < r.amount

/-- Joint invariant of the engine state maintained by the processor. -/
def EngineInv (st : EngineState) : Prop :=
  NonnegStore st.accounts ∧ PositiveLog st.txLog

theorem tryUpdate_fst_preserves (P : ClientAccount → Prop) (s : AccountStore) (c : Nat)
    (f : ClientAccount → ClientAccount × Option DomainError)
    (hs : ∀ c2 a, s c2 = some a → P a)
    (hf : ∀ a, P a → P (f a).1)
    (hnew : P (ClientAccount.new c)) :
    ∀ c2 a, (tryUpdate s c f).1 c2 = some a → P a := by
  intro c2 a h
  unfold tryUpdate at h
  rcases hsc : s c with _ | a0
  · rw [hsc] at h
    simp only [] at h
    rcases hr : (f (ClientAccount.new c)).2 with _ | e
    · rw [hr] at h
      replace h : storeSet s c (f (ClientAccount.new c)).1 c2 = some a := h
      unfold storeSet at h
      by_cases hc : c2 = c
      · rw [if_pos hc] at h
        injection h with hb
        subst hb
        exact hf _ hnew
      · rw [if_neg hc] at h
        exact hs c2 a h
    · rw [hr] at h
      replace h : s c2 = some a := h
      exact hs c2 a h
  · rw [hsc] at h
    replace h : storeSet s c (f a0).1 c2 = some a := h
    unfold storeSet at h
    by_cases hc : c2 = c
    · rw [if_pos hc] at h
      injection h with hb
      subst hb
      exact hf _ (hs c a0 hsc)
    · rw [if_neg hc] at h
      exact hs c2 a h

/-- A successful try_update of a domain operation means the operation
succeeded on some account (the stored one or a fresh one). -/
theorem tryUpdate_toUpdateFn_ok {s : AccountStore} {c : Nat}
    {g : ClientAccount → Except DomainError ClientAccount}
    (h : (tryUpdate s c (toUpdateFn g)).2 = none) :
    ∃ a b, g a = .ok b := by
  unfold tryUpdate toUpdateFn at h
  rcases hsc : s c with _ | a0
  · rw [hsc] at h
    simp only [] at h
    rcases hg : g (ClientAccount.new c) with e | b
    · rw [hg] at h
      exact Option.noConfusion
        (show some (StorageError.DomainFault e) = none from h)
    · exact ⟨_, _, hg⟩
  · rw [hsc] at h
    simp only [] at h
    rcases hg : g a0 with e | b
    · rw [hg] at h
      exact Option.noConfusion
        (show some (StorageError.DomainFault e) = none from h)
    · exact ⟨_, _, hg⟩

theorem toUpdateFn_preserves_nonneg
    {g : ClientAccount → Except DomainError ClientAccount}
    (hg : ∀ a b, g a = .ok b → NonnegAcct a → NonnegAcct b) :
    ∀ a, NonnegAcct a → NonnegAcct ((toUpdateFn g) a).1 := by
  intro a ha
  unfold toUpdateFn
  rcases h : g a with e | b
  · exact ha
  · exact hg a b h ha

theorem processDispute_log_some {st : EngineState} {c t : Nat} {r : TransactionRecord}
    (hl : st.txLog t = some r) :
    processDispute st c t =
      if r.client_id ≠ c then (st, .error (.TransactionNotFound t))
      else
        match (tryUpdate st.accounts c (toUpdateFn fun a => applyDispute a t r.amount)).2 with
        | some e =>
          ({ st with accounts :=
              (tryUpdate st.accounts c (toUpdateFn fun a => applyDispute a t r.amount)).1 },
            .error (.Storage e))
        | none =>
          ({ st with accounts :=
              (tryUpdate st.accounts c (toUpdateFn fun a => applyDispute a t r.amount)).1 },
            .ok ()) := by
  unfold processDispute
  rw [hl]

theorem processResolve_log_some {st : EngineState} {c t : Nat} {r : TransactionRecord}
    (hl : st.txLog t = some r) :
    processResolve st c t =
      if r.client_id ≠ c then (st, .error (.TransactionNotFound t))
      else
        match (tryUpdate st.accounts c (toUpdateFn fun a => applyResolve a t r.amount)).2 with
        | some e =>
          ({ st with accounts :=
              (tryUpdate st.accounts c (toUpdateFn fun a => applyResolve a t r.amount)).1 },
            .error (.Storage e))
        | none =>
          ({ st with accounts :=
              (tryUpdate st.accounts c (toUpdateFn fun a => applyResolve a t r.amount)).1 },
            .ok ()) := by
  unfold processResolve
  rw [hl]

theorem processChargeback_log_some {st : EngineState} {c t : Nat} {r : TransactionRecord}
    (hl : st.txLog t = some r) :
    processChargeback st c t =
      if r.client_id ≠ c then (st, .error (.TransactionNotFound t))
      else
        match (tryUpdate st.accounts c (toUpdateFn fun a => applyChargeback a t r.amount)).2 with
        | some e =>
          ({ st with accounts :=
              (tryUpdate st.accounts c (toUpdateFn fun a => applyChargeback a t r.amount)).1 },
            .error (.Storage e))
        | none =>
          ({ st with accounts :=
              (tryUpdate st.accounts c (toUpdateFn fun a => applyChargeback a t r.amount)).1 },
            .ok ()) := by
  unfold processChargeback
  rw [hl]

theorem engineInv_step (st : EngineState) (ev : Transaction) (h : EngineInv st) :
    EngineInv (processTransaction st ev).1 := by
  obtain ⟨hacc, hlog⟩ := h
  have hnew : ∀ c, NonnegAcct (ClientAccount.new c) := fun c => ⟨le_refl 0, le_refl 0⟩
  cases ev with
  | Deposit c t amt =>
    simp only [processTransaction, processDeposit]
    have hstore : NonnegStore
        (tryUpdate st.accounts c (toUpdateFn fun a => applyDeposit a amt)).1 := by
      intro c2 a ha
      refine tryUpdate_fst_preserves NonnegAcct st.accounts c _ hacc ?_ (hnew c) c2 a ha
      refine toUpdateFn_preserves_nonneg ?_
      intro x y hxy hx
      obtain ⟨p1, p2, p3⟩ := applyDeposit_ok_inv hxy
      have hx1 := hx.1
      have hx2 := hx.2
      exact ⟨by omega, by omega⟩
    rcases hu : (tryUpdate st.accounts c (toUpdateFn fun a => applyDeposit a amt)).2 with _ | e
    · obtain ⟨a0, b0, hg⟩ := tryUpdate_toUpdateFn_ok hu
      have hpos : 0 < amt := (applyDeposit_ok_inv hg).1
      have hlog2 : PositiveLog (logInsert st.txLog t ⟨c, amt⟩) := by
        intro t2 r hr
        unfold logInsert at hr
        by_cases ht : t2 = t
        · rw [if_pos ht] at hr
          injection hr with hb
          subst hb
          exact hpos
        · rw [if_neg ht] at hr
          exact hlog t2 r hr
      exact ⟨hstore, hlog2⟩
    · exact ⟨hstore, hlog⟩
  | Withdrawal c t amt =>
    simp only [processTransaction, processWithdrawal]
    have hstore : NonnegStore
        (tryUpdate st.accounts c (toUpdateFn fun a => applyWithdrawal a amt)).1 := by
      intro c2 a ha
      refine tryUpdate_fst_preserves NonnegAcct st.accounts c _ hacc ?_ (hnew c) c2 a ha
      refine toUpdateFn_preserves_nonneg ?_
      intro x y hxy hx
      obtain ⟨p1, p2, p3, p4⟩ := applyWithdrawal_ok_inv hxy
      have hx1 := hx.1
      have hx2 := hx.2
      exact ⟨by omega, by omega⟩
    rcases hu : (tryUpdate st.accounts c (toUpdateFn fun a => applyWithdrawal a amt)).2 with
      _ | e
    · obtain ⟨a0, b0, hg⟩ := tryUpdate_toUpdateFn_ok hu
      have hpos : 0 < amt := (applyWithdrawal_ok_inv hg).1
      have hlog2 : PositiveLog (logInsert st.txLog t ⟨c, amt⟩) := by
        intro t2 r hr
        unfold logInsert at hr
        by_cases ht : t2 = t
        · rw [if_pos ht] at hr
          injection hr with hb
          subst hb
          exact hpos
        · rw [if_neg ht] at hr
          exact hlog t2 r hr
      exact ⟨hstore, hlog2⟩
    · exact ⟨hstore, hlog⟩
  | Dispute c t =>
    simp only [processTransaction]
    rcases hl : st.txLog t with _ | r
    · unfold processDispute
      rw [hl]
      exact ⟨hacc, hlog⟩
    · rw [processDispute_log_some hl]
      have hpos : 0 < r.amount := hlog t r hl
      by_cases hcl : r.client_id ≠ c
      · rw [if_pos hcl]
        exact ⟨hacc, hlog⟩
      · rw [if_neg hcl]
        have hstore : NonnegStore
            (tryUpdate st.accounts c (toUpdateFn fun a => applyDispute a t r.amount)).1 := by
          intro c2 a ha
          refine tryUpdate_fst_preserves NonnegAcct st.accounts c _ hacc ?_ (hnew c) c2 a ha
          refine toUpdateFn_preserves_nonneg ?_
          intro x y hxy hx
          obtain ⟨p1, p2, p3⟩ := applyDispute_ok_inv hxy
          have hx1 := hx.1
          have hx2 := hx.2
          exact ⟨by omega, by omega⟩
        rcases hu :
            (tryUpdate st.accounts c (toUpdateFn fun a => applyDispute a t r.amount)).2 with
          _ | e
        · exact ⟨hstore, hlog⟩
        · exact ⟨hstore, hlog⟩
  | Resolve c t =>
    simp only [processTransaction]
    rcases hl : st.txLog t with _ | r
    · unfold processResolve
      rw [hl]
      exact ⟨hacc, hlog⟩
    · rw [processResolve_log_some hl]
      have hpos : 0 < r.amount := hlog t r hl
      by_cases hcl : r.client_id ≠ c
      · rw [if_pos hcl]
        exact ⟨hacc, hlog⟩
      · rw [if_neg hcl]
        have hstore : NonnegStore
            (tryUpdate st.accounts c (toUpdateFn fun a => applyResolve a t r.amount)).1 := by
          intro c2 a ha
          refine tryUpdate_fst_preserves NonnegAcct st.accounts c _ hacc ?_ (hnew c) c2 a ha
          refine toUpdateFn_preserves_nonneg ?_
          intro x y hxy hx
          obtain ⟨p1, p2, p3⟩ := applyResolve_ok_inv hxy
          have hx1 := hx.1
          have hx2 := hx.2
          exact ⟨by omega, by omega⟩
        rcases hu :
            (tryUpdate st.accounts c (toUpdateFn fun a => applyResolve a t r.amount)).2 with
          _ | e
        · exact ⟨hstore, hlog⟩
        · exact ⟨hstore, hlog⟩
  | Chargeback c t =>
    simp only [processTransaction]
    rcases hl : st.txLog t with _ | r
    · unfold processChargeback
      rw [hl]
      exact ⟨hacc, hlog⟩
    · rw [processChargeback_log_some hl]
      by_cases hcl : r.client_id ≠ c
      · rw [if_pos hcl]
        exact ⟨hacc, hlog⟩
      · rw [if_neg hcl]
        have hstore : NonnegStore
            (tryUpdate st.accounts c (toUpdateFn fun a => applyChargeback a t r.amount)).1 := by
          intro c2 a ha
          refine tryUpdate_fst_preserves NonnegAcct st.accounts c _ hacc ?_ (hnew c) c2 a ha
          refine toUpdateFn_preserves_nonneg ?_
          intro x y hxy hx
          obtain ⟨p1, p2, p3⟩ := applyChargeback_ok_inv hxy
          have hx1 := hx.1
          have hx2 := hx.2
          exact ⟨by omega, by omega⟩
        rcases hu :
            (tryUpdate st.accounts c (toUpdateFn fun a => applyChargeback a t r.amount)).2 with
          _ | e
        · exact ⟨hstore, hlog⟩
        · exact ⟨hstore, hlog⟩

theorem engineInv_run (trace : List Transaction) :
    ∀ st : EngineState, EngineInv st →
      EngineInv (trace.foldl (fun s tx => (processTransaction s tx).1) st) := by
  induction trace with
  | nil => intro st h; exact h
  | cons ev rest ih =>
    intro st h
    exact ih _ (engineInv_step st ev h)

theorem engineInv_initial : EngineInv initialState := by
  constructor
  · intro c a h; cases h
  · intro t r h; cases h

/-- C2: processing any event trace from the empty store and empty log,
every stored account has available ≥ 0 and held ≥ 0, and total is the
derived sum available + held (total is a function, never a field).  Every
observation point is the final state of some trace prefix, and the trace is
universally quantified, so this covers every point. -/
theorem c2_account_invariants (trace : List Transaction) (c : Nat) (a : ClientAccount)
    (h : (runTrace trace).accounts c = some a) :
    0 ≤ a.available ∧ 0 ≤ a.held ∧ a.total = a.available + a.held := by
  have hinv := engineInv_run trace initialState engineInv_initial
  have := hinv.1 c a h
  exact ⟨this.1, this.2, rfl⟩

/-- C2 witness: after one deposit of 5 by client 1, the account satisfies
the invariants. -/
theorem c2_account_invariants_witness :
    0 ≤ (⟨1, 5, 0, false, []⟩ : ClientAccount).available ∧
    0 ≤ (⟨1, 5, 0, false, []⟩ : ClientAccount).held ∧
    (⟨1, 5, 0, false, []⟩ : ClientAccount).total =
      (⟨1, 5, 0, false, []⟩ : ClientAccount).available +
        (⟨1, 5, 0, false, []⟩ : ClientAccount).held :=
  c2_account_invariants [.Deposit 1 1 5] 1 ⟨1, 5, 0, false, []⟩ (by decide)

/-- C10: every record in the transaction log after processing any trace has
a strictly positive amount (records are inserted only after a successful
deposit or withdrawal, and both reject amounts ≤ 0). -/
theorem c10_log_amounts_positive (trace : List Transaction) (t : Nat)
    (r : TransactionRecord) (h : (runTrace trace).txLog t = some r) : 0 < r.amount := by
  have hinv := engineInv_run trace initialState engineInv_initial
  exact hinv.2 t r h

/-- C10 witness: the record stored by a deposit of 5 has a positive amount. -/
theorem c10_log_amounts_positive_witness :
    0 < (⟨1, 5⟩ : TransactionRecord).amount :=
  c10_log_amounts_positive [.Deposit 1 1 5] 1 ⟨1, 5⟩ (by decide)

/-! ## Claim C7: Chain shard = sequential processing of the concatenation -/

theorem processShardStream_append (l1 l2 : List StreamItem) (p : ErrorPolicy) :
    ∀ st : EngineState,
      processShardStream (l1 ++ l2) p st =
        (if (processShardStream l1 p st).2 then
          processShardStream l2 p (processShardStream l1 p st).1
        else processShardStream l1 p st) := by
  induction l1 with
  | nil => intro st; simp [processShardStream]
  | cons item rest ih =>
    intro st
    cases item with
    | ok tx =>
      simp only [List.cons_append, processShardStream]
      rcases hr : (processTransaction st tx).2 with e | u
      · simp only []
        by_cases hp : p.handleEngineError e
        · rw [if_pos hp, if_pos hp]
          exact ih _
        · rw [if_neg hp, if_neg hp]
          simp
      · simp only []
        exact ih _
    | error e =>
      simp only [List.cons_append, processShardStream]
      by_cases hp : p.handleIoError e
      · rw [if_pos hp, if_pos hp]
        exact ih _
      · rw [if_neg hp, if_neg hp]
        simp

theorem shardFold_aborted (p : ErrorPolicy) :
    ∀ (streams : List (List StreamItem)) (acc : EngineState × Bool), acc.2 = false →
      streams.foldl
        (fun acc s => if acc.2 then processShardStream s p acc.1 else acc) acc = acc := by
  intro streams
  induction streams with
  | nil => intro acc h; rfl
  | cons s rest ih =>
    intro acc h
    simp only [List.foldl_cons, h]
    rw [if_neg (by simp [h])]
    exact ih acc h

theorem flatten_run_eq_fold (p : ErrorPolicy) :
    ∀ (streams : List (List StreamItem)) (st : EngineState),
      processShardStream streams.flatten p st =
        streams.foldl
          (fun acc s => if acc.2 then processShardStream s p acc.1 else acc) (st, true) := by
  intro streams
  induction streams with
  | nil => intro st; rfl
  | cons s rest ih =>
    intro st
    rw [List.flatten_cons, List.foldl_cons, processShardStream_append]
    have hstep :
        (if ((st, true) : EngineState × Bool).2 = true then
          processShardStream s p ((st, true) : EngineState × Bool).1
        else (st, true)) = processShardStream s p st := by simp
    rw [hstep]
    rcases hb : (processShardStream s p st).2 with _ | _
    · rw [if_neg (by simp [hb]), shardFold_aborted p rest _ hb]
    · rw [if_pos (by simp [hb]), ih]
      have hpair : processShardStream s p st = ((processShardStream s p st).1, true) := by
        conv_lhs => rw [← Prod.mk.eta (p := processShardStream s p st)]
        rw [hb]
      conv_rhs => rw [hpair]

/-- C7: for a single-client trace split into K ≥ 1 streams handed in order
to one shard under Chain, the shard's run equals one processor folding over
the concatenated trace, and also equals processing the streams one after
another (each stream consumed fully before the next, stopping once a stream
aborts). -/
theorem c7_chain_shard_equals_concatenated (streams : List (List StreamItem))
    (trace : List StreamItem) (policy : ErrorPolicy) (st : EngineState) (c : Nat)
    (hK : 1 ≤ streams.length) (hcat : streams.flatten = trace)
    (hclient : ∀ tx : Transaction, Except.ok tx ∈ trace → tx.clientId = c) :
    chainShardRun streams policy st = processShardStream trace policy st ∧
    chainShardRun streams policy st =
      streams.foldl
        (fun acc s => if acc.2 then processShardStream s policy acc.1 else acc) (st, true) := by
  constructor
  · rw [← hcat]; rfl
  · unfold chainShardRun chainCombine
    exact flatten_run_eq_fold policy streams st

/-- The always-continue policy (SilentSkip). -/
def silentSkipPolicy : ErrorPolicy := ⟨fun _ => true, fun _ => true⟩

/-- C7 witness: two single-client streams chained on one shard behave like
the concatenated trace. -/
theorem c7_chain_shard_equals_concatenated_witness :
    chainShardRun [[Except.ok (.Deposit 1 1 5)], [Except.ok (.Withdrawal 1 2 3)]]
        silentSkipPolicy initialState =
      processShardStream [Except.ok (.Deposit 1 1 5), Except.ok (.Withdrawal 1 2 3)]
        silentSkipPolicy initialState ∧
    chainShardRun [[Except.ok (.Deposit 1 1 5)], [Except.ok (.Withdrawal 1 2 3)]]
        silentSkipPolicy initialState =
      [[Except.ok (.Deposit 1 1 5)], [Except.ok (.Withdrawal 1 2 3)]].foldl
        (fun acc s => if acc.2 then processShardStream s silentSkipPolicy acc.1 else acc)
        (initialState, true) := by
  refine c7_chain_shard_equals_concatenated _ _ silentSkipPolicy initialState 1
    (by decide) rfl ?_
  intro tx htx
  rcases htx with _ | ⟨_, htx⟩
  · rfl
  · rcases htx with _ | ⟨_, htx⟩
    · rfl
    · cases htx

/-! ## Claim C8: shard assignment formulas of process() -/

theorem pushAt_getElem? : ∀ (ls : List (List α)) (i : Nat) (x : α) (k : Nat),
    (pushAt ls i x)[k]? =
      if k = i then (ls[k]?).map (fun l => l ++ [x]) else ls[k]?
  | [], i, x, k => by simp [pushAt]
  | l :: rest, 0, x, 0 => by simp [pushAt]
  | l :: rest, 0, x, k + 1 => by simp [pushAt]
  | l :: rest, i + 1, x, 0 => by simp [pushAt]
  | l :: rest, i + 1, x, k + 1 => by
    simp only [pushAt, List.getElem?_cons_succ]
    rw [pushAt_getElem? rest i x k]
    by_cases hk : k = i
    · rw [if_pos hk, if_pos (by omega)]
    · rw [if_neg hk, if_neg (by omega)]

theorem foldPush_getElem? (g : Nat → Nat) :
    ∀ (pairs : List (Nat × α)) (init : List (List α)) (k : Nat),
      (pairs.foldl (fun sh p => pushAt sh (g p.1) p.2) init)[k]? =
        (init[k]?).map
          (fun l => l ++ (pairs.filter (fun p => g p.1 = k)).map Prod.snd) := by
  intro pairs
  induction pairs with
  | nil =>
    intro init k
    simp
  | cons p rest ih =>
    intro init k
    simp only [List.foldl_cons]
    rw [ih, pushAt_getElem?]
    by_cases hk : k = g p.1
    · rw [if_pos hk]
      rcases hi : init[k]? with _ | l
      · simp
      · simp only [Option.map_some, List.filter_cons]
        rw [if_pos (by simp [hk])]
        simp [List.append_assoc]
    · rw [if_neg hk]
      rcases hi : init[k]? with _ | l
      · simp
      · simp only [Option.map_some, List.filter_cons]
        rw [if_neg (by simp; omega)]

theorem buildShards_getElem? (assignment : ShardAssignment) (numShards : Nat)
    (streams : List α) (k : Nat) (hk : k < numShards) :
    (buildShards assignment numShards streams)[k]? =
      some (assignedTo (shardIndex assignment numShards streams.length) k streams) := by
  unfold buildShards assignedTo
  rw [foldPush_getElem?]
  rw [List.getElem?_replicate, if_pos hk]
  simp

/-- C8: with S ≥ 1 added streams and N ≥ 1 shards, the assignment loop of
process() places the i-th stream in bucket i mod N under RoundRobin, in
bucket min(i / ceil(S/N), N-1) (with ceil(S/N) = (S+N-1)/N) under
Sequential, and in bucket f(i) mod N under Custom(f): bucket k holds
exactly the streams whose index maps to k, in insertion order. -/
theorem c8_shard_assignment_formulas {α : Type} (S N : Nat) (hS : 1 ≤ S) (hN : 1 ≤ N)
    (streams : List α) (hlen : streams.length = S) (f : Nat → Nat) (k : Nat)
    (hk : k < N) :
    (buildShards .RoundRobin N streams)[k]? =
      some (assignedTo (fun i => i % N) k streams) ∧
    (buildShards .Sequential N streams)[k]? =
      some (assignedTo (fun i => min (i / ((S + N - 1) / N)) (N - 1)) k streams) ∧
    (buildShards (.Custom f) N streams)[k]? =
      some (assignedTo (fun i => f i % N) k streams) := by
  subst hlen
  exact ⟨buildShards_getElem? _ _ _ k hk, buildShards_getElem? _ _ _ k hk,
    buildShards_getElem? _ _ _ k hk⟩

/-- C8 witness: three streams over two shards, bucket 1. -/
theorem c8_shard_assignment_formulas_witness :
    (buildShards .RoundRobin 2 [10, 20, 30])[1]? =
      some (assignedTo (fun i => i % 2) 1 [10, 20, 30]) ∧
    (buildShards .Sequential 2 [10, 20, 30])[1]? =
      some (assignedTo (fun i => min (i / ((3 + 2 - 1) / 2)) (2 - 1)) 1 [10, 20, 30]) ∧
    (buildShards (.Custom fun i => i * 3) 2 [10, 20, 30])[1]? =
      some (assignedTo (fun i => i * 3 % 2) 1 [10, 20, 30]) :=
  c8_shard_assignment_formulas 3 2 (by decide) (by decide) [10, 20, 30] rfl
    (fun i => i * 3) 1 (by decide)

/-! ## Claim C4: the language accepted by from_decimal_str -/

theorem rustParseI64_val {cs : List Char} {v : Int} (h : rustParseI64 cs = some v) :
    v = intSignedVal cs := by
  unfold rustParseI64 at h
  split_ifs at h
  injection h with hb
  exact hb.symm

theorem rustParseI64_isSome_shape {cs : List Char}
    (h : (rustParseI64 cs).isSome = true) : intSyntaxOk cs = true := by
  unfold rustParseI64 at h
  split_ifs at h with hc
  case pos => exact ((Bool.and_eq_true _ _).mp hc).1
  case neg => simp at h

theorem intSyntaxOk_no_dot {cs : List Char} (h : intSyntaxOk cs = true) :
    ('.' : Char) ∉ cs := by
  unfold intSyntaxOk at h
  intro hmem
  rcases cs with _ | ⟨c, rest⟩
  · cases hmem
  · replace h : (if (decide (c = '+') || decide (c = '-')) = true
        then !rest.isEmpty && rest.all isDigitChar
        else (c :: rest).all isDigitChar) = true := h
    by_cases hsign : (decide (c = '+') || decide (c = '-')) = true
    · rw [if_pos hsign] at h
      have hall : rest.all isDigitChar = true := ((Bool.and_eq_true _ _).mp h).2
      rcases List.mem_cons.mp hmem with hh | ht
      · rcases (Bool.or_eq_true _ _).mp hsign with h1 | h1 <;>
          (rw [decide_eq_true_eq] at h1; rw [h1] at hh; exact absurd hh (by decide))
      · have := (List.all_eq_true.mp hall) _ ht
        simp [isDigitChar] at this
    · rw [if_neg hsign] at h
      have := (List.all_eq_true.mp h) _ hmem
      simp [isDigitChar] at this

theorem mem_padRight4 {c : Char} {cs : List Char} (h : c ∈ cs) : c ∈ padRight4 cs :=
  List.mem_append_left _ h

theorem rustParseI64_pad_dot {fs : List Char} (h : ('.' : Char) ∈ fs) :
    rustParseI64 (padRight4 fs) = none := by
  rcases hp : rustParseI64 (padRight4 fs) with _ | v
  · rfl
  · exfalso
    have hsome : (rustParseI64 (padRight4 fs)).isSome = true := by rw [hp]; rfl
    exact intSyntaxOk_no_dot (rustParseI64_isSome_shape hsome) (mem_padRight4 h)

theorem dropWhile_head_not {p : Char → Bool} :
    ∀ {l : List Char} {c : Char} {t : List Char}, l.dropWhile p = c :: t → p c = false := by
  intro l
  induction l with
  | nil => intro c t h; cases h
  | cons x xs ih =>
    intro c t h
    rw [List.dropWhile_cons] at h
    by_cases hx : p x = true
    · rw [if_pos hx] at h
      exact ih h
    · rw [if_neg hx] at h
      injection h with h1 h2
      subst h1
      exact Bool.eq_false_iff.mpr hx

theorem takeWhile_no_dot (body : List Char) :
    ('.' : Char) ∉ body.takeWhile (fun c => c ≠ '.') := by
  intro h
  have := List.mem_takeWhile_imp h
  simp at this

theorem splitOnDot_no_dot : ∀ {cs : List Char}, ('.' : Char) ∉ cs → splitOnDot cs = [cs] := by
  intro cs
  induction cs with
  | nil => intro _; rfl
  | cons c rest ih =>
    intro h
    have hc : ¬(c = '.') := fun hc => h (hc ▸ List.mem_cons_self c rest)
    have hrest : ('.' : Char) ∉ rest := fun hm => h (List.mem_cons_of_mem c hm)
    unfold splitOnDot
    rw [if_neg hc, ih hrest]

theorem splitOnDot_append : ∀ {ds : List Char} (fs : List Char), ('.' : Char) ∉ ds →
    splitOnDot (ds ++ '.' :: fs) = ds :: splitOnDot fs := by
  intro ds
  induction ds with
  | nil =>
    intro fs _
    show splitOnDot ('.' :: fs) = [] :: splitOnDot fs
    conv_lhs => rw [splitOnDot]
    rw [if_pos rfl]
  | cons d rest ih =>
    intro fs h
    have hd : ¬(d = '.') := fun hc => h (hc ▸ List.mem_cons_self d rest)
    have hrest : ('.' : Char) ∉ rest := fun hm => h (List.mem_cons_of_mem d hm)
    show splitOnDot (d :: (rest ++ '.' :: fs)) = (d :: rest) :: splitOnDot fs
    conv_lhs => rw [splitOnDot]
    rw [if_neg hd, ih fs hrest]

theorem splitOnDot_length : ∀ (cs : List Char), (splitOnDot cs).length = cs.count '.' + 1 := by
  intro cs
  induction cs with
  | nil => rfl
  | cons c rest ih =>
    unfold splitOnDot
    by_cases hc : c = '.'
    · rw [if_pos hc]
      simp only [List.length_cons, ih, List.count_cons]
      rw [if_pos (by simp [hc])]
    · rw [if_neg hc]
      rcases hs : splitOnDot rest with _ | ⟨h0, t⟩
      · exfalso
        rw [hs] at ih
        simp at ih
      · rw [hs] at ih
        simp only [List.length_cons] at ih ⊢
        rw [List.count_cons, if_neg (by simp [hc])]
        omega

theorem splitOnDot_two_of_mem : ∀ {fs : List Char}, ('.' : Char) ∈ fs →
    ∃ x y zs, splitOnDot fs = x :: y :: zs := by
  intro fs
  induction fs with
  | nil => intro h; cases h
  | cons c rest ih =>
    intro h
    by_cases hc : c = '.'
    · obtain ⟨x, t, hs⟩ : ∃ x t, splitOnDot rest = x :: t := by
        rcases hsd : splitOnDot rest with _ | ⟨x, t⟩
        · exfalso
          have hlen := splitOnDot_length rest
          rw [hsd] at hlen
          simp at hlen
        · exact ⟨x, t, rfl⟩
      refine ⟨[], x, t, ?_⟩
      conv_lhs => rw [splitOnDot]
      rw [if_pos hc, hs]
    · have hrest : ('.' : Char) ∈ rest := by
        rcases List.mem_cons.mp h with h1 | h1
        · exact absurd h1.symm hc
        · exact h1
      obtain ⟨x, y, zs, hxy⟩ := ih hrest
      refine ⟨c :: x, y, zs, ?_⟩
      unfold splitOnDot
      rw [if_neg hc, hxy]

theorem fromParts_eq_spec (neg : Bool) (ip dp : List Char) :
    fromParts neg ip dp =
      (if (rustParseI64 ip).isSome &&
            (decide (dp.length ≤ 4) && (rustParseI64 (padRight4 dp)).isSome) then
        (if inI64B (intSignedVal ip * 10000) &&
              inI64B (intSignedVal ip * 10000 + intSignedVal (padRight4 dp)) then
          .ok (if neg then -(intSignedVal ip * 10000 + intSignedVal (padRight4 dp))
            else intSignedVal ip * 10000 + intSignedVal (padRight4 dp))
        else .error .Overflow)
      else .error .InvalidAmount) := by
  unfold fromParts
  by_cases hlen : dp.length > 4
  · rw [if_pos hlen, if_neg ?hc1]
    case hc1 =>
      intro hcond
      have h2 := ((Bool.and_eq_true _ _).mp hcond).2
      have h3 := ((Bool.and_eq_true _ _).mp h2).1
      rw [decide_eq_true_eq] at h3
      omega
  · rw [if_neg hlen]
    rcases hip : rustParseI64 ip with _ | i
    · simp only []
      rw [if_neg ?hc2]
      case hc2 =>
        intro hcond
        have h1 := ((Bool.and_eq_true _ _).mp hcond).1
        simp at h1
    · simp only []
      have hi := rustParseI64_val hip
      rcases hdp : rustParseI64 (padRight4 dp) with _ | d
      · simp only []
        rw [if_neg ?hc3]
        case hc3 =>
          intro hcond
          have h2 := ((Bool.and_eq_true _ _).mp hcond).2
          have h3 := ((Bool.and_eq_true _ _).mp h2).2
          simp at h3
      · simp only []
        subst hi
        have hd := rustParseI64_val hdp
        subst hd
        have hlen4 : decide (dp.length ≤ 4) = true := by
          rw [decide_eq_true_eq]
          omega
        by_cases hA : inI64B (intSignedVal ip * 10000) <;>
          by_cases hB : inI64B (intSignedVal ip * 10000 + intSignedVal (padRight4 dp)) <;>
          simp [hA, hB, hlen4]

/-- C4 (amended): from_decimal_str accepts exactly the texts that, after
trimming, consist of an optional leading '-', an integer part accepted by
the signed 64-bit parser (optional '+' or '-' sign, one or more digits,
value in range), and optionally '.' followed by at most 4 characters that
the same parser accepts after right-padding with '0' to four places (so an
empty or sign-bearing fraction is accepted); all other inputs fail with
InvalidAmount, and only overflow in the scale-and-combine arithmetic fails
with Overflow.  The value is integer·10000 + fraction, negated when the
text had a leading '-'. -/
theorem c4_parse_language (s : String) : fromDecimalStr s = amendedSpecParse s := by
  unfold fromDecimalStr amendedSpecParse decomposeAmount amendedAccepts
  simp only []
  generalize (if (trimWS s.data).head? = some '-' then (trimWS s.data).tail
    else trimWS s.data) = body
  have hsplit : body.takeWhile (fun c => decide (c ≠ '.')) ++
      body.dropWhile (fun c => decide (c ≠ '.')) = body :=
    List.takeWhile_append_dropWhile (fun c => decide (c ≠ '.')) body
  rcases hrest : body.dropWhile (fun c => decide (c ≠ '.')) with _ | ⟨c, fs⟩
  · rw [hrest, List.append_nil] at hsplit
    rw [splitOnDot_no_dot (by rw [← hsplit]; exact takeWhile_no_dot body)]
    rw [hsplit]
    simp only []
    rw [fromParts_eq_spec]
    simp only [List.tail_nil, List.isEmpty_nil, List.length_nil]
    simp [show (rustParseI64 (padRight4 ([] : List Char))).isSome = true from by decide]
  · have hc : c = '.' := by
      have := dropWhile_head_not hrest
      simp at this
      exact this
    subst hc
    have hbody : body = body.takeWhile (fun c => decide (c ≠ '.')) ++ '.' :: fs := by
      rw [← hrest]
      exact hsplit.symm
    by_cases hfs : ('.' : Char) ∈ fs
    · obtain ⟨x, y, zs, hxyz⟩ := splitOnDot_two_of_mem hfs
      conv_lhs => rw [hbody, splitOnDot_append fs (takeWhile_no_dot body), hxyz]
      simp only []
      rw [if_neg ?hacc]
      case hacc =>
        intro hcond
        have h2 := ((Bool.and_eq_true _ _).mp hcond).2
        simp only [List.isEmpty_cons, List.tail_cons, Bool.false_or] at h2
        have h3 := ((Bool.and_eq_true _ _).mp h2).2
        rw [rustParseI64_pad_dot hfs] at h3
        simp at h3
    · conv_lhs => rw [hbody, splitOnDot_append fs (takeWhile_no_dot body),
        splitOnDot_no_dot hfs]
      simp only []
      rw [fromParts_eq_spec]
      simp only [List.isEmpty_cons, List.tail_cons, Bool.false_or]

/-- C4 witness-free equality is universally quantified with no hypotheses;
this closed instance exercises it on a concrete text. -/
theorem c4_parse_language_sample : fromDecimalStr "  -12.07  " = .ok (-120700) := by decide

/-- C4 counterexample: the claimed grammar demands at least one fractional
digit after '.' and only digits in the parts, yet the code accepts "1."
(empty fraction) and "+1" (a '+' sign), because both the integer part and
the zero-padded fraction go through Rust's signed i64 parser. -/
theorem c4_claim_counterexample :
    claimedGrammar "1." = false ∧ fromDecimalStr "1." = .ok 10000 ∧
    claimedGrammar "+1" = false ∧ fromDecimalStr "+1" = .ok 10000 := by
  refine ⟨by decide, by decide, by decide, by decide⟩

/-! ## Claim C6: round-trip law (digit arithmetic machinery) -/

theorem digitVal_lt_10 {c : Char} (h : isDigitChar c = true) : digitVal c < 10 := by
  unfold isDigitChar at h
  unfold digitVal
  simp only [Bool.and_eq_true, decide_eq_true_eq] at h
  omega

theorem digitChar_digitVal {c : Char} (h : isDigitChar c = true) :
    digitChar (digitVal c) = c := by
  unfold isDigitChar at h
  unfold digitChar digitVal
  simp only [Bool.and_eq_true, decide_eq_true_eq] at h
  rw [show 48 + (c.toNat - 48) = c.toNat from by omega]
  exact Char.ofNat_toNat c

theorem digitsToNat_general :
    ∀ (L : List Char) (acc : Nat),
      L.foldl (fun n c => 10 * n + digitVal c) acc =
        acc * 10 ^ L.length + digitsToNat L := by
  intro L
  induction L with
  | nil => intro acc; simp [digitsToNat]
  | cons c rest ih =>
    intro acc
    have h1 := ih (10 * acc + digitVal c)
    have h2 := ih (digitVal c)
    simp only [List.foldl_cons]
    rw [h1]
    have hd : digitsToNat (c :: rest) = digitVal c * 10 ^ rest.length + digitsToNat rest := by
      show List.foldl _ (10 * 0 + digitVal c) rest = _
      rw [show 10 * 0 + digitVal c = digitVal c from by omega, h2]
    rw [hd]
    simp only [List.length_cons]
    ring

theorem digitsToNat_cons (c : Char) (rest : List Char) :
    digitsToNat (c :: rest) = digitVal c * 10 ^ rest.length + digitsToNat rest := by
  show List.foldl _ (10 * 0 + digitVal c) rest = _
  rw [show 10 * 0 + digitVal c = digitVal c from by omega, digitsToNat_general]

theorem digitsToNat_append_singleton (L : List Char) (c : Char) :
    digitsToNat (L ++ [c]) = 10 * digitsToNat L + digitVal c := by
  unfold digitsToNat
  rw [List.foldl_append]
  rfl

theorem digitsToNat_lt {L : List Char} (h : L.all isDigitChar = true) :
    digitsToNat L < 10 ^ L.length := by
  induction L with
  | nil => simp [digitsToNat]
  | cons c rest ih =>
    simp only [List.all_cons, Bool.and_eq_true] at h
    have hd := digitVal_lt_10 h.1
    have hr := ih h.2
    rw [digitsToNat_cons]
    simp only [List.length_cons]
    calc digitVal c * 10 ^ rest.length + digitsToNat rest
        < digitVal c * 10 ^ rest.length + 10 ^ rest.length := by omega
      _ = (digitVal c + 1) * 10 ^ rest.length := by ring
      _ ≤ 10 * 10 ^ rest.length := Nat.mul_le_mul_right _ (by omega)
      _ = 10 ^ (rest.length + 1) := by ring

theorem digitsToNat_zero_replicate :
    ∀ {L : List Char}, L.all isDigitChar = true → digitsToNat L = 0 →
      L = List.replicate L.length '0' := by
  intro L
  induction L with
  | nil => intro _ _; rfl
  | cons c rest ih =>
    intro hall hz
    simp only [List.all_cons, Bool.and_eq_true] at hall
    rw [digitsToNat_cons] at hz
    have hd : digitVal c = 0 := by
      by_contra hd
      have : 1 ≤ digitVal c := by omega
      have hp : 0 < 10 ^ rest.length := Nat.pos_pow_of_pos _ (by omega)
      nlinarith
    have hc : c = '0' := by
      have := digitChar_digitVal hall.1
      rw [hd] at this
      rw [← this]
      rfl
    have hrest : digitsToNat rest = 0 := by
      have hp : 0 < 10 ^ rest.length := Nat.pos_pow_of_pos _ (by omega)
      omega
    rw [List.length_cons, List.replicate_succ, hc, ← ih hall.2 hrest]

theorem natRepr_ne_nil (n : Nat) : natRepr n ≠ [] := by
  rw [natRepr]
  split_ifs <;> simp

theorem natRepr_length_le : ∀ (k n : Nat), n < 10 ^ k → 1 ≤ k → (natRepr n).length ≤ k := by
  intro k
  induction k with
  | zero => intro n _ h1; omega
  | succ k ih =>
    intro n hn _
    by_cases h10 : n < 10
    · rw [natRepr, dif_pos h10]
      simp
    · rw [natRepr, dif_neg h10]
      have hk : 1 ≤ k := by
        by_contra hk
        have : k = 0 := by omega
        subst this
        simp at hn
        omega
      have hdiv : n / 10 < 10 ^ k := by
        have h1 : n < 10 ^ k * 10 := by
          rw [show 10 ^ k * 10 = 10 ^ (k + 1) from by ring]
          exact hn
        exact Nat.div_lt_of_lt_mul (by omega)
      have := ih (n / 10) hdiv hk
      simp only [List.length_append, List.length_cons, List.length_nil]
      omega

theorem natRepr_pad :
    ∀ (L : List Char), L.all isDigitChar = true → L ≠ [] →
      List.replicate (L.length - (natRepr (digitsToNat L)).length) '0' ++
        natRepr (digitsToNat L) = L := by
  intro L
  induction L using List.reverseRecOn with
  | nil => intro _ h; exact absurd rfl h
  | append_singleton M c ih =>
    intro hall _
    have hallM : M.all isDigitChar = true := by
      rw [List.all_append] at hall
      exact ((Bool.and_eq_true _ _).mp hall).1
    have hc : isDigitChar c = true := by
      rw [List.all_append] at hall
      have := ((Bool.and_eq_true _ _).mp hall).2
      simpa using this
    have hd := digitVal_lt_10 hc
    rw [digitsToNat_append_singleton]
    rcases hM : M with _ | ⟨m0, Mr⟩
    · -- single digit
      simp only [digitsToNat, List.foldl_nil]
      rw [show 10 * 0 + digitVal c = digitVal c from by omega]
      rw [natRepr, dif_pos hd, digitChar_digitVal hc]
      simp
    · rw [← hM]
      have hMne : M ≠ [] := by rw [hM]; simp
      by_cases hm : digitsToNat M = 0
      · -- leading zeros: M is all '0'
        rw [hm]
        rw [show 10 * 0 + digitVal c = digitVal c from by omega]
        rw [natRepr, dif_pos hd, digitChar_digitVal hc]
        have hMrep := digitsToNat_zero_replicate hallM hm
        simp only [List.length_append, List.length_cons, List.length_nil]
        rw [show M.length + 1 - 1 = M.length from by omega]
        rw [← hMrep]
      · -- significant digits: natRepr peels the last digit
        have h10 : ¬(10 * digitsToNat M + digitVal c < 10) := by omega
        rw [natRepr, dif_neg h10]
        have hdiv : (10 * digitsToNat M + digitVal c) / 10 = digitsToNat M := by omega
        have hmod : (10 * digitsToNat M + digitVal c) % 10 = digitVal c := by omega
        rw [hdiv, hmod, digitChar_digitVal hc]
        have hlenM : (natRepr (digitsToNat M)).length ≤ M.length := by
          refine natRepr_length_le M.length (digitsToNat M) (digitsToNat_lt hallM) ?_
          rw [hM]; simp
        have harith : (M.length + 1) - ((natRepr (digitsToNat M)).length + 1) =
            M.length - (natRepr (digitsToNat M)).length := by omega
        simp only [List.length_append, List.length_cons, List.length_nil]
        rw [show M.length + 1 - ((natRepr (digitsToNat M)).length + 1) =
          M.length - (natRepr (digitsToNat M)).length from by omega]
        rw [show List.replicate (M.length - (natRepr (digitsToNat M)).length) '0' ++
            (natRepr (digitsToNat M) ++ [c]) =
          (List.replicate (M.length - (natRepr (digitsToNat M)).length) '0' ++
            natRepr (digitsToNat M)) ++ [c] from by rw [List.append_assoc]]
        rw [ih hallM hMne]

theorem i64Max_lit : i64Max = 9223372036854775807 := by decide

theorem padRight4_length {frac : List Char} (h : frac.length ≤ 4) :
    (padRight4 frac).length = 4 := by
  unfold padRight4
  rw [List.length_append, List.length_replicate]
  omega

theorem padRight4_all {frac : List Char} (h : frac.all isDigitChar = true) :
    (padRight4 frac).all isDigitChar = true := by
  unfold padRight4
  rw [List.all_append]
  refine (Bool.and_eq_true _ _).mpr ⟨h, ?_⟩
  rw [List.all_eq_true]
  intro c hc
  rw [List.eq_of_mem_replicate hc]
  decide

theorem intSignedVal_digits {L : List Char} (h : L.all isDigitChar = true)
    (hne : L ≠ []) : intSignedVal L = (digitsToNat L : Int) := by
  unfold intSignedVal
  rcases L with _ | ⟨c, rest⟩
  · exact absurd rfl hne
  · simp only []
    simp only [List.all_cons, Bool.and_eq_true] at h
    have hc := h.1
    have hminus : ¬(c = '-') := by
      intro hcm
      rw [hcm] at hc
      simp [isDigitChar] at hc
    have hplus : ¬(c = '+') := by
      intro hcm
      rw [hcm] at hc
      simp [isDigitChar] at hc
    rw [if_neg hminus, if_neg hplus]

theorem intSyntaxOk_digits {L : List Char} (h : L.all isDigitChar = true)
    (hne : L ≠ []) : intSyntaxOk L = true := by
  unfold intSyntaxOk
  rcases L with _ | ⟨c, rest⟩
  · exact absurd rfl hne
  · simp only []
    simp only [List.all_cons, Bool.and_eq_true] at h
    have hc := h.1
    have hsign : ¬((decide (c = '+') || decide (c = '-')) = true) := by
      intro hcm
      rcases (Bool.or_eq_true _ _).mp hcm with h1 | h1 <;>
        (rw [decide_eq_true_eq] at h1; rw [h1] at hc; simp [isDigitChar] at hc)
    rw [if_neg hsign]
    rw [List.all_cons]
    exact (Bool.and_eq_true _ _).mpr ⟨hc, h.2⟩

theorem rustParseI64_digits {L : List Char} (h : L.all isDigitChar = true)
    (hne : L ≠ []) (hrange : (digitsToNat L : Int) ≤ i64Max) :
    rustParseI64 L = some ((digitsToNat L : Int)) := by
  unfold rustParseI64
  rw [intSignedVal_digits h hne, intSyntaxOk_digits h hne]
  rw [if_pos ?hc]
  case hc =>
    simp only [Bool.true_and, inI64B, Bool.and_eq_true, decide_eq_true_eq]
    constructor
    · have : (0 : Int) ≤ (digitsToNat L : Int) := Int.ofNat_nonneg _
      have : i64Min ≤ 0 := by decide
      omega
    · exact hrange

theorem c6_parse_part (neg : Bool) (ds frac : List Char)
    (hds : ds.all isDigitChar = true) (hdsne : ds ≠ [])
    (hfrac : frac.all isDigitChar = true) (hflen : frac.length ≤ 4)
    (hrange :
      ((digitsToNat ds * 10000 + digitsToNat (padRight4 frac) : Nat) : Int) ≤ i64Max) :
    fromParts neg ds frac =
      .ok (if neg
        then -((digitsToNat ds * 10000 + digitsToNat (padRight4 frac) : Nat) : Int)
        else ((digitsToNat ds * 10000 + digitsToNat (padRight4 frac) : Nat) : Int)) := by
  have hpadall := padRight4_all hfrac
  have hpadlen := padRight4_length hflen
  have hpadne : padRight4 frac ≠ [] := by
    intro h
    rw [h] at hpadlen
    cases hpadlen
  have hD : digitsToNat (padRight4 frac) < 10000 := by
    have := digitsToNat_lt hpadall
    rw [hpadlen] at this
    simpa using this
  rw [i64Max_lit] at hrange
  have hrange2 : (digitsToNat ds : Int) * 10000 + (digitsToNat (padRight4 frac) : Int) ≤
      9223372036854775807 := by push_cast at hrange; omega
  have hIr : (digitsToNat ds : Int) ≤ i64Max := by
    rw [i64Max_lit]
    have h0 : (0 : Int) ≤ (digitsToNat ds : Int) := Int.ofNat_nonneg _
    have h1 : (0 : Int) ≤ (digitsToNat (padRight4 frac) : Int) := Int.ofNat_nonneg _
    nlinarith
  have hDr : (digitsToNat (padRight4 frac) : Int) ≤ i64Max := by
    rw [i64Max_lit]
    have : (digitsToNat (padRight4 frac) : Int) < 10000 := by exact_mod_cast hD
    omega
  have hip := rustParseI64_digits hds hdsne hIr
  have hdp := rustParseI64_digits hpadall hpadne hDr
  rw [fromParts_eq_spec]
  rw [intSignedVal_digits hds hdsne, intSignedVal_digits hpadall hpadne]
  rw [if_pos ?hacc]
  case hacc =>
    rw [hip, hdp]
    simp only [Option.isSome_some, Bool.true_and, Bool.and_true]
    rw [decide_eq_true_eq]
    exact hflen
  rw [if_pos ?hov]
  case hov =>
    have h0 : (0 : Int) ≤ (digitsToNat ds : Int) := Int.ofNat_nonneg _
    have h1 : (0 : Int) ≤ (digitsToNat (padRight4 frac) : Int) := Int.ofNat_nonneg _
    simp only [inI64B, Bool.and_eq_true, decide_eq_true_eq]
    have hmin : i64Min ≤ 0 := by decide
    rw [i64Max_lit]
    refine ⟨⟨by omega, by nlinarith⟩, ⟨by omega, by omega⟩⟩
  cases neg <;> simp <;> push_cast <;> ring

theorem c6_format_part (neg : Bool) (I : Nat) (frac : List Char)
    (hfrac : frac.all isDigitChar = true) (hflen : frac.length ≤ 4) :
    toDecimalString (if neg
        then -((I * 10000 + digitsToNat (padRight4 frac) : Nat) : Int)
        else ((I * 10000 + digitsToNat (padRight4 frac) : Nat) : Int)) =
      ⟨(if neg && decide ((I * 10000 + digitsToNat (padRight4 frac) : Nat) ≠ 0)
          then ['-'] else []) ++ natRepr I ++ '.' :: padRight4 frac⟩ := by
  have hpadall := padRight4_all hfrac
  have hpadlen := padRight4_length hflen
  have hpadne : padRight4 frac ≠ [] := by
    intro h
    rw [h] at hpadlen
    cases hpadlen
  have hD : digitsToNat (padRight4 frac) < 10000 := by
    have := digitsToNat_lt hpadall
    rw [hpadlen] at this
    simpa using this
  unfold toDecimalString
  have habs : (if neg
      then -((I * 10000 + digitsToNat (padRight4 frac) : Nat) : Int)
      else ((I * 10000 + digitsToNat (padRight4 frac) : Nat) : Int)).natAbs =
      I * 10000 + digitsToNat (padRight4 frac) := by
    cases neg
    · rw [if_neg (by simp)]
      omega
    · rw [if_pos rfl]
      omega
  rw [habs]
  simp only []
  have hdiv : (I * 10000 + digitsToNat (padRight4 frac)) / 10000 = I := by omega
  have hmod : (I * 10000 + digitsToNat (padRight4 frac)) % 10000 =
      digitsToNat (padRight4 frac) := by omega
  rw [hdiv, hmod]
  have hfr : leftPad4 (natRepr (digitsToNat (padRight4 frac))) = padRight4 frac := by
    have hnp := natRepr_pad (padRight4 frac) hpadall hpadne
    rw [hpadlen] at hnp
    unfold leftPad4
    exact hnp
  rw [hfr]
  have hsign :
      (if (if neg
          then -((I * 10000 + digitsToNat (padRight4 frac) : Nat) : Int)
          else ((I * 10000 + digitsToNat (padRight4 frac) : Nat) : Int)) < 0
        then ['-'] else ([] : List Char)) =
      (if neg && decide ((I * 10000 + digitsToNat (padRight4 frac) : Nat) ≠ 0)
        then ['-'] else []) := by
    cases neg with
    | false =>
      rw [if_neg (by simp; omega), if_neg (by simp)]
    | true =>
      rcases Nat.eq_zero_or_pos (I * 10000 + digitsToNat (padRight4 frac)) with hz | hp
      · rw [hz]
        norm_num
      · rw [if_pos ?hl, if_pos ?hr]
        case hl =>
          simp only [if_true]
          omega
        case hr =>
          simp only [Bool.true_and, decide_eq_true_eq]
          omega
  rw [hsign]

theorem all_digits_no_dot {L : List Char} (h : L.all isDigitChar = true) :
    ('.' : Char) ∉ L := by
  intro hm
  have := List.all_eq_true.mp h _ hm
  simp [isDigitChar] at this

theorem takeWhile_append_all {p : Char → Bool} :
    ∀ {ds : List Char} (l2 : List Char), (∀ c ∈ ds, p c = true) →
      (ds ++ l2).takeWhile p = ds ++ l2.takeWhile p := by
  intro ds
  induction ds with
  | nil => intro l2 _; rfl
  | cons d rest ih =>
    intro l2 h
    rw [List.cons_append, List.takeWhile_cons,
      if_pos (h d (List.mem_cons_self d rest)), ih l2 (fun c hc => h c (List.mem_cons_of_mem d hc)),
      List.cons_append]

theorem dropWhile_append_all {p : Char → Bool} :
    ∀ {ds : List Char} (l2 : List Char), (∀ c ∈ ds, p c = true) →
      (ds ++ l2).dropWhile p = l2.dropWhile p := by
  intro ds
  induction ds with
  | nil => intro l2 _; rfl
  | cons d rest ih =>
    intro l2 h
    rw [List.cons_append, List.dropWhile_cons,
      if_pos (h d (List.mem_cons_self d rest))]
    exact ih l2 (fun c hc => h c (List.mem_cons_of_mem d hc))

theorem digit_ne_dot {c : Char} (h : isDigitChar c = true) : decide (c ≠ '.') = true := by
  rw [decide_eq_true_eq]
  intro hc
  rw [hc] at h
  simp [isDigitChar] at h

theorem c6_body_roundtrip (neg : Bool) (body : List Char)
    (hg : (!(body.takeWhile isDigitChar).isEmpty &&
      ((body.dropWhile isDigitChar).isEmpty ||
        ((body.dropWhile isDigitChar).head? = some '.' &&
          !(body.dropWhile isDigitChar).tail.isEmpty &&
          (body.dropWhile isDigitChar).tail.length ≤ 4 &&
          (body.dropWhile isDigitChar).tail.all isDigitChar))) = true)
    (hrange : ((digitsToNat (body.takeWhile (fun c => decide (c ≠ '.'))) * 10000 +
      digitsToNat (padRight4 ((body.dropWhile (fun c => decide (c ≠ '.'))).tail))
        : Nat) : Int) ≤ i64Max) :
    ∃ v : Int,
      (match splitOnDot body with
        | [ip] => fromParts neg ip []
        | [ip, dp] => fromParts neg ip dp
        | _ => Except.error DomainError.InvalidAmount) = .ok v ∧
      toDecimalString v =
        ⟨(if neg && decide (digitsToNat (body.takeWhile (fun c => decide (c ≠ '.'))) * 10000 +
              digitsToNat (padRight4 ((body.dropWhile (fun c => decide (c ≠ '.'))).tail)) ≠ 0)
            then ['-'] else []) ++
          natRepr (digitsToNat (body.takeWhile (fun c => decide (c ≠ '.')))) ++
          '.' :: padRight4 ((body.dropWhile (fun c => decide (c ≠ '.'))).tail)⟩ := by
  rw [Bool.and_eq_true, Bool.or_eq_true] at hg
  obtain ⟨hds1, hrest1⟩ := hg
  have hdsne : body.takeWhile isDigitChar ≠ [] := by
    intro h
    rw [h] at hds1
    simp at hds1
  have hdsall : (body.takeWhile isDigitChar).all isDigitChar = true := by
    rw [List.all_eq_true]
    intro c hc
    exact List.mem_takeWhile_imp hc
  have hsplit : body.takeWhile isDigitChar ++ body.dropWhile isDigitChar = body :=
    List.takeWhile_append_dropWhile _ _
  have hds_nodot : ∀ c ∈ body.takeWhile isDigitChar, decide (c ≠ '.') = true :=
    fun c hc => digit_ne_dot (List.mem_takeWhile_imp hc)
  rcases hre : body.dropWhile isDigitChar with _ | ⟨r0, fs⟩
  · -- Case A: all-digit body, no fractional part
    rw [hre, List.append_nil] at hsplit
    have htw : body.takeWhile (fun c => decide (c ≠ '.')) = body := by
      conv_lhs => rw [← hsplit]
      rw [show (body.takeWhile isDigitChar) =
        (body.takeWhile isDigitChar) ++ [] from (List.append_nil _).symm]
      rw [takeWhile_append_all [] hds_nodot]
      rw [List.takeWhile_nil, List.append_nil]
      exact hsplit
    have hdw : body.dropWhile (fun c => decide (c ≠ '.')) = [] := by
      conv_lhs => rw [← hsplit]
      rw [show (body.takeWhile isDigitChar) =
        (body.takeWhile isDigitChar) ++ [] from (List.append_nil _).symm]
      rw [dropWhile_append_all [] hds_nodot]
      rfl
    rw [htw, hdw, List.tail_nil] at hrange ⊢
    rw [splitOnDot_no_dot (by
      rw [← hsplit]
      exact all_digits_no_dot hdsall)]
    simp only []
    rw [hsplit] at hdsall hdsne
    refine ⟨_, c6_parse_part _ body [] hdsall hdsne rfl (by decide) ?_, ?_⟩
    · exact_mod_cast hrange
    · rw [c6_format_part _ (digitsToNat body) [] rfl (by decide)]
  · -- Case B: digits, '.', then 1-4 fractional digits
    have hr0 : r0 = '.' := by
      rcases hrest1 with hemp | hdot
      · rw [hre] at hemp
        simp at hemp
      · rw [hre] at hdot
        rw [Bool.and_eq_true, Bool.and_eq_true, Bool.and_eq_true] at hdot
        have := hdot.1.1.1
        simp at this
        exact this
    subst hr0
    have hfs : fs.length ≤ 4 ∧ fs.all isDigitChar = true := by
      rcases hrest1 with hemp | hdot
      · rw [hre] at hemp
        simp at hemp
      · rw [hre] at hdot
        rw [Bool.and_eq_true, Bool.and_eq_true, Bool.and_eq_true] at hdot
        refine ⟨?_, by simpa using hdot.2⟩
        have := hdot.1.2
        simpa using this
    rw [hre] at hsplit
    have htw : body.takeWhile (fun c => decide (c ≠ '.')) = body.takeWhile isDigitChar := by
      conv_lhs => rw [← hsplit]
      rw [takeWhile_append_all _ hds_nodot]
      rw [List.takeWhile_cons, if_neg (by simp), List.append_nil]
    have hdw : body.dropWhile (fun c => decide (c ≠ '.')) = '.' :: fs := by
      conv_lhs => rw [← hsplit]
      rw [dropWhile_append_all _ hds_nodot]
      rw [List.dropWhile_cons, if_neg (by simp)]
    rw [htw, hdw, List.tail_cons] at hrange ⊢
    rw [show splitOnDot body = [body.takeWhile isDigitChar, fs] from by
      conv_lhs => rw [← hsplit]
      rw [splitOnDot_append fs (all_digits_no_dot hdsall),
        splitOnDot_no_dot (all_digits_no_dot hfs.2)]]
    simp only []
    refine ⟨_, c6_parse_part _ (body.takeWhile isDigitChar) fs hdsall hdsne hfs.2 hfs.1 ?_,
      ?_⟩
    · exact_mod_cast hrange
    · rw [c6_format_part _ (digitsToNat (body.takeWhile isDigitChar)) fs hfs.2 hfs.1]

/-- C6: parse of any text of the claimed grammar succeeds (given its scaled
value is representable), and formatting the result prints the canonical
form: the same number with the integer part in canonical decimal, the
fractional part zero-padded on the right to exactly four digits, and the
'-' sign dropped when the value is zero. -/
theorem c6_format_parse_roundtrip (s : String) (hg : claimedGrammar s = true)
    (hrange : ((grammarScaled s : Nat) : Int) ≤ i64Max) :
    ∃ v : Int, fromDecimalStr s = .ok v ∧ toDecimalString v = canonicalize s :=
  c6_body_roundtrip (decide ((trimWS s.data).head? = some '-'))
    (if (trimWS s.data).head? = some '-' then (trimWS s.data).tail else trimWS s.data)
    hg hrange

/-- C6 witness: the grammar text "-007.5" parses to -75000 and formats back
to its canonical form "-7.5000". -/
theorem c6_format_parse_roundtrip_witness :
    ∃ v : Int, fromDecimalStr "-007.5" = .ok v ∧
      toDecimalString v = canonicalize "-007.5" :=
  c6_format_parse_roundtrip "-007.5" (by decide) (by decide)

end Pay
